import Mathlib

/-!
# Verification of the Cody diff/decoration engine and Deep Cody reviewer loop

Shallow embedding of the two algorithmic subsystems of the repository:

* `src/vscode/src/autoedits/renderer/diff-utils.ts` — the line/character
  level diff-to-decoration engine (`getDecorationInfo`,
  `computeDiffOperations`, `computeLineChanges`, `isSimpleLineDiff`,
  `createModifiedLineInfo`, `sortDiff`);
* `src/vscode/src/chat/chat-view/handlers/registry.ts` — the
  `DeepCodyAgent` review loop (`getContext`, `reviewLoop`, `review`,
  `reflect`, `processStream`).

JS strings are modelled as `List Char` (`Str`).  The `id` fields produced
by `uuid.v4()` carry no information relevant to any property below and are
omitted from the embedded records.  Several functions that are recursive
with a non-structural measure are written with an explicit fuel argument
(always called with enough fuel, as the accompanying lemmas show), so that
every definition stays executable by kernel reduction.
-/

set_option maxHeartbeats 1000000

namespace Cody

/-- JS strings are modelled as lists of characters. -/
abbrev Str := List Char

/-- Coerce a Lean string literal into the `Str` model. -/
def str (s : String) : Str := s.data

/-! ## Newline detection and line splitting

`getDecorationInfo` splits the two texts with
`text.split(getNewLineChar(text))`.  `getNewLineChar` lives in
`src/vscode/src/completions/text-processing.ts`, which is not part of the
source snapshot, so it is modelled from the spec.
-/

/-- Modelled from the spec: `getNewLineChar` (from the absent
`completions/text-processing` module) returns the newline convention
detected in the text — the first newline occurrence, preferring
`"\r\n"` over `"\n"` — falling back to `"\n"` for texts without
newlines («Split both texts into lines using the dominant newline style
detected in the text …; fall back to `\n`», spec §4.1). -/
def getNewLineChar : Str → Str
  | [] => ['\n']
  | '\r' :: '\n' :: _ => ['\r', '\n']
  | '\n' :: _ => ['\n']
  | _ :: rest => getNewLineChar rest

/-- Prepend a character to the first component of a split result. -/
def consHead (c : Char) : List Str → List Str
  | [] => [[c]]
  | x :: xs => (c :: x) :: xs

/-- Fuelled worker for `splitSep`; the fuel bounds the input length. -/
def splitSepF (sep : Str) : Nat → Str → List Str
  | _, [] => [[]]
  | 0, l => [l]
  | fuel + 1, c :: rest =>
    if sep.isPrefixOf (c :: rest) ∧ sep ≠ [] then
      [] :: splitSepF sep fuel ((c :: rest).drop sep.length)
    else
      consHead c (splitSepF sep fuel rest)

/-- JS `String.prototype.split` with a non-empty string separator:
greedily removes the leftmost occurrence of the separator. -/
def splitSep (sep l : Str) : List Str := splitSepF sep l.length l

/-- JS `Array.prototype.join` with a string separator. -/
def joinSep (sep : Str) : List Str → Str
  | [] => []
  | [x] => x
  | x :: xs => x ++ sep ++ joinSep sep xs

theorem splitSepF_ne_nil (sep : Str) (fuel : Nat) (l : Str) :
    splitSepF sep fuel l ≠ [] := by
  match fuel, l with
  | fuel, [] => simp [splitSepF]
  | 0, c :: rest => simp [splitSepF]
  | fuel + 1, c :: rest =>
    rw [splitSepF]
    split
    · simp
    · cases splitSepF sep fuel rest <;> simp [consHead]

theorem joinSep_consHead (sep : Str) (c : Char) (xs : List Str) (hne : xs ≠ []) :
    joinSep sep (consHead c xs) = c :: joinSep sep xs := by
  match xs with
  | [] => exact absurd rfl hne
  | [x] => simp [consHead, joinSep]
  | x :: y :: xs => simp [consHead, joinSep]

theorem joinSep_nil_cons (sep : Str) (y : Str) (ys : List Str) :
    joinSep sep ([] :: y :: ys) = sep ++ joinSep sep (y :: ys) := by
  simp [joinSep]

theorem joinSep_splitSepF (sep : Str) (fuel : Nat) (l : Str)
    (hf : l.length ≤ fuel) : joinSep sep (splitSepF sep fuel l) = l := by
  induction fuel generalizing l with
  | zero =>
    match l with
    | [] => simp [splitSepF, joinSep]
    | c :: rest => simp at hf
  | succ fuel ih =>
    match l with
    | [] => simp [splitSepF, joinSep]
    | c :: rest =>
      rw [splitSepF]
      split
      · rename_i hpre
        have hp : sep <+: (c :: rest) := by
          simpa [List.isPrefixOf_iff_prefix] using hpre.1
        have hpos : 0 < sep.length := List.length_pos.mpr hpre.2
        obtain ⟨t, ht⟩ := hp
        have hdlen : ((c :: rest).drop sep.length).length ≤ fuel := by
          simp only [List.length_drop, List.length_cons]
          simp only [List.length_cons] at hf
          omega
        have hne : splitSepF sep fuel ((c :: rest).drop sep.length) ≠ [] :=
          splitSepF_ne_nil _ _ _
        have ihd := ih ((c :: rest).drop sep.length) hdlen
        cases hsp : splitSepF sep fuel ((c :: rest).drop sep.length) with
        | nil => exact absurd hsp hne
        | cons y ys =>
          rw [hsp] at ihd
          rw [joinSep_nil_cons, ihd, ← ht, List.drop_left]
      · have hrlen : rest.length ≤ fuel := by
          simp only [List.length_cons] at hf
          omega
        rw [joinSep_consHead sep c _ (splitSepF_ne_nil _ _ _), ih rest hrlen]

/-- Splitting by a separator and joining with the same separator is the
identity: the basis of the diff round-trip property. -/
theorem joinSep_splitSep (sep l : Str) : joinSep sep (splitSep sep l) = l :=
  joinSep_splitSepF sep l.length l (Nat.le_refl _)

/-- Line splitting as performed by `getDecorationInfo`
(`text.split(getNewLineChar(text))`). -/
def splitLines (t : Str) : List Str := splitSep (getNewLineChar t) t

theorem joinSep_splitLines (t : Str) :
    joinSep (getNewLineChar t) (splitLines t) = t :=
  joinSep_splitSep _ _

/-! ## The sequence-diff primitive

`diff-utils.ts` imports `diff` from the `fast-myers-diff` npm package
(external dependency, source not part of the repository).  Modelled from
the spec: «Compute a minimal edit script over the two line sequences (an
LCS-style diff yielding a sequence of `(origStart, origEnd, modStart,
modEnd)` replace/insert/delete hunks)» — an LCS-based edit script that
emits maximal (merged) hunks of absolute half-open index ranges.
-/

/-- One diff hunk `[originalStart, originalEnd, modifiedStart, modifiedEnd]`. -/
structure Hunk where
  oStart : Nat
  oEnd : Nat
  mStart : Nat
  mEnd : Nat
deriving DecidableEq, Repr

/-- One dynamic-programming pass for the LCS length: processes the
row for a fixed left element `a` against `bs`, where `prev` carries the
previous row from column 1 on, `diag` the previous row's entry one
column left, and `left` the entry just computed in this row. -/
def lcsGo [DecidableEq α] (a : α) : List α → List Nat → Nat → Nat → List Nat
  | [], _, _, _ => []
  | b :: bs, prev, diag, left =>
    let up := prev.headD 0
    let v := if a = b then diag + 1 else max left up
    v :: lcsGo a bs prev.tail up v

/-- Length of a longest common subsequence, by the classic
row-by-row dynamic programme. -/
def lcsLen [DecidableEq α] (xs ys : List α) : Nat :=
  let finalRow := xs.foldl (fun row a => 0 :: lcsGo a ys row.tail (row.headD 0) 0)
    (List.replicate (ys.length + 1) 0)
  finalRow.getLastD 0

/-- Extend an edit script with a deletion of the element at original
index `i` (current modified index `j`), merging with an immediately
adjacent hunk. -/
def pushDel (i j : Nat) : List Hunk → List Hunk
  | h :: t =>
    if h.oStart = i + 1 ∧ h.mStart = j then ⟨i, h.oEnd, j, h.mEnd⟩ :: t
    else ⟨i, i + 1, j, j⟩ :: h :: t
  | [] => [⟨i, i + 1, j, j⟩]

/-- Extend an edit script with an insertion of the element at modified
index `j` (current original index `i`), merging with an immediately
adjacent hunk. -/
def pushIns (i j : Nat) : List Hunk → List Hunk
  | h :: t =>
    if h.oStart = i ∧ h.mStart = j + 1 then ⟨i, h.oEnd, j, h.mEnd⟩ :: t
    else ⟨i, i, j, j + 1⟩ :: h :: t
  | [] => [⟨i, i, j, j + 1⟩]

/-- Fuelled LCS edit script between the suffixes `xs`/`ys` whose first
elements sit at absolute indices `i`/`j`; the fuel bounds the sum of the
lengths. -/
def diffAuxF [DecidableEq α] : Nat → List α → List α → Nat → Nat → List Hunk
  | _, [], [], _, _ => []
  | _, [], y :: ys, i, j => [⟨i, i, j, j + (y :: ys).length⟩]
  | _, x :: xs, [], i, j => [⟨i, i + (x :: xs).length, j, j⟩]
  | 0, _ :: _, _ :: _, _, _ => []
  | fuel + 1, x :: xs, y :: ys, i, j =>
    if x = y then diffAuxF fuel xs ys (i + 1) (j + 1)
    else if lcsLen xs (y :: ys) ≥ lcsLen (x :: xs) ys then
      pushDel i j (diffAuxF fuel xs (y :: ys) (i + 1) j)
    else
      pushIns i j (diffAuxF fuel (x :: xs) ys i (j + 1))

/-- The sequence diff: list of `(origStart, origEnd, modStart, modEnd)`
hunks (model of `fast-myers-diff`'s `diff`). -/
def seqDiff [DecidableEq α] (xs ys : List α) : List Hunk :=
  diffAuxF (xs.length + ys.length) xs ys 0 0

/-- Validity of an edit script against the full sequences, starting the
walk at absolute positions `i`/`j`: hunk ranges are chained, in bounds,
the gaps between hunks are element-wise equal on both sides, and after
the final hunk the remaining suffixes agree. -/
inductive HunksValid (orig modif : List α) : Nat → Nat → List Hunk → Prop
  | nil (i j : Nat) : orig.drop i = modif.drop j → HunksValid orig modif i j []
  | cons (i j : Nat) (h : Hunk) (t : List Hunk) :
      i ≤ h.oStart → j ≤ h.mStart →
      h.oStart - i = h.mStart - j →
      (orig.drop i).take (h.oStart - i) = (modif.drop j).take (h.mStart - j) →
      h.oStart ≤ h.oEnd → h.oEnd ≤ orig.length →
      h.mStart ≤ h.mEnd → h.mEnd ≤ modif.length →
      HunksValid orig modif h.oEnd h.mEnd t →
      HunksValid orig modif i j (h :: t)

theorem drop_eq_cons_lt_length {l : List α} {i : Nat} {x : α} {t : List α}
    (h : l.drop i = x :: t) : i < l.length := by
  by_contra hge
  rw [List.drop_eq_nil_of_le (Nat.le_of_not_lt hge)] at h
  exact List.noConfusion h

theorem drop_succ_of_drop_cons {l : List α} {i : Nat} {x : α} {t : List α}
    (h : l.drop i = x :: t) : l.drop (i + 1) = t := by
  rw [← List.tail_drop, h]
  rfl

theorem take_succ_of_drop_cons {l : List α} {i n : Nat} {x : α} {t : List α}
    (h : l.drop i = x :: t) :
    (l.drop i).take (n + 1) = x :: (l.drop (i + 1)).take n := by
  rw [h, drop_succ_of_drop_cons h, List.take_succ_cons]

/-- A valid edit script for bases one step further in (with equal
current elements) is valid for the outer bases. -/
theorem hunksValid_shift {orig modif : List α} {i j : Nat} {x : α}
    {xs ys : List α} (hx : orig.drop i = x :: xs) (hy : modif.drop j = x :: ys)
    {H : List Hunk} (hv : HunksValid orig modif (i + 1) (j + 1) H) :
    HunksValid orig modif i j H := by
  cases hv with
  | nil _ _ heq =>
    refine .nil i j ?_
    have hxs : xs = orig.drop (i + 1) := (drop_succ_of_drop_cons hx).symm
    have hys : ys = modif.drop (j + 1) := (drop_succ_of_drop_cons hy).symm
    rw [hx, hy, hxs, hys, heq]
  | cons _ _ h t h1 h2 h3 h4 h5 h6 h7 h8 htail =>
    have hgi : h.oStart - i = (h.oStart - (i + 1)) + 1 := by omega
    have hgj : h.mStart - j = (h.mStart - (j + 1)) + 1 := by omega
    refine .cons i j h t (by omega) (by omega) (by omega) ?_ h5 h6 h7 h8 htail
    rw [hgi, hgj, take_succ_of_drop_cons hx, take_succ_of_drop_cons hy, h4]

/-- Deleting the element at original index `i` in front of a valid
script yields a valid script. -/
theorem pushDel_valid {orig modif : List α} {i j : Nat}
    (hi : i < orig.length) (hj : j ≤ modif.length) {H : List Hunk}
    (hv : HunksValid orig modif (i + 1) j H) :
    HunksValid orig modif i j (pushDel i j H) := by
  cases hv with
  | nil _ _ heq =>
    refine .cons i j ⟨i, i + 1, j, j⟩ [] ?_ ?_ ?_ ?_ ?_ ?_ ?_ ?_ (.nil _ _ heq)
    all_goals try simp
    all_goals omega
  | cons _ _ h t h1 h2 h3 h4 h5 h6 h7 h8 htail =>
    rw [pushDel]
    split
    · rename_i hm
      have hos : h.oStart = i + 1 := hm.1
      have hms : h.mStart = j := hm.2
      refine .cons i j ⟨i, h.oEnd, j, h.mEnd⟩ t ?_ ?_ ?_ ?_ ?_ ?_ ?_ ?_ htail
      all_goals try simp
      all_goals omega
    · refine .cons i j ⟨i, i + 1, j, j⟩ (h :: t) ?_ ?_ ?_ ?_ ?_ ?_ ?_ ?_
        (.cons _ _ h t h1 h2 h3 h4 h5 h6 h7 h8 htail)
      all_goals try simp
      all_goals omega

/-- Inserting the element at modified index `j` in front of a valid
script yields a valid script. -/
theorem pushIns_valid {orig modif : List α} {i j : Nat}
    (hi : i ≤ orig.length) (hj : j < modif.length) {H : List Hunk}
    (hv : HunksValid orig modif i (j + 1) H) :
    HunksValid orig modif i j (pushIns i j H) := by
  cases hv with
  | nil _ _ heq =>
    refine .cons i j ⟨i, i, j, j + 1⟩ [] ?_ ?_ ?_ ?_ ?_ ?_ ?_ ?_ (.nil _ _ heq)
    all_goals try simp
    all_goals omega
  | cons _ _ h t h1 h2 h3 h4 h5 h6 h7 h8 htail =>
    rw [pushIns]
    split
    · rename_i hm
      have hos : h.oStart = i := hm.1
      have hms : h.mStart = j + 1 := hm.2
      refine .cons i j ⟨i, h.oEnd, j, h.mEnd⟩ t ?_ ?_ ?_ ?_ ?_ ?_ ?_ ?_ htail
      all_goals try simp
      all_goals omega
    · refine .cons i j ⟨i, i, j, j + 1⟩ (h :: t) ?_ ?_ ?_ ?_ ?_ ?_ ?_ ?_
        (.cons _ _ h t h1 h2 h3 h4 h5 h6 h7 h8 htail)
      all_goals try simp
      all_goals omega

/-- The modelled LCS edit script is a valid edit script. -/
theorem diffAuxF_valid [DecidableEq α] (fuel : Nat) (xs ys : List α)
    (i j : Nat) (orig modif : List α)
    (hfuel : xs.length + ys.length ≤ fuel)
    (hx : orig.drop i = xs) (hy : modif.drop j = ys)
    (hi : i ≤ orig.length) (hj : j ≤ modif.length) :
    HunksValid orig modif i j (diffAuxF fuel xs ys i j) := by
  induction fuel generalizing xs ys i j with
  | zero =>
    match xs, ys with
    | [], [] => exact .nil i j (hx.trans hy.symm)
    | [], y :: ys => simp at hfuel
    | x :: xs, [] => simp at hfuel
    | x :: xs, y :: ys => simp at hfuel
  | succ fuel ih =>
    match xs, ys with
    | [], [] => exact .nil i j (hx.trans hy.symm)
    | [], y :: ys =>
      have hlen : j + (ys.length + 1) = modif.length := by
        have := congrArg List.length hy
        simp only [List.length_drop, List.length_cons] at this
        omega
      have hilen : orig.length ≤ i := by
        have := congrArg List.length hx
        simp only [List.length_drop, List.length_nil] at this
        omega
      rw [diffAuxF]
      simp only [List.length_cons]
      refine .cons i j ⟨i, i, j, j + (ys.length + 1)⟩ [] ?_ ?_ ?_ ?_ ?_ ?_ ?_ ?_ ?_
      case refine_9 =>
        refine .nil _ _ ?_
        show orig.drop i = modif.drop (j + (ys.length + 1))
        rw [hx, List.drop_eq_nil_of_le (by omega)]
      all_goals try simp
      all_goals omega
    | x :: xs, [] =>
      have hlen : i + (xs.length + 1) = orig.length := by
        have := congrArg List.length hx
        simp only [List.length_drop, List.length_cons] at this
        omega
      have hjlen : modif.length ≤ j := by
        have := congrArg List.length hy
        simp only [List.length_drop, List.length_nil] at this
        omega
      rw [diffAuxF]
      simp only [List.length_cons]
      refine .cons i j ⟨i, i + (xs.length + 1), j, j⟩ [] ?_ ?_ ?_ ?_ ?_ ?_ ?_ ?_ ?_
      case refine_9 =>
        refine .nil _ _ ?_
        show orig.drop (i + (xs.length + 1)) = modif.drop j
        rw [hy, List.drop_eq_nil_of_le (by omega)]
      all_goals try simp
      all_goals omega
    | x :: xs, y :: ys =>
      rw [diffAuxF]
      by_cases heq : x = y
      · rw [if_pos heq]
        subst heq
        have hx' := drop_succ_of_drop_cons hx
        have hy' := drop_succ_of_drop_cons hy
        have hfuel' : xs.length + ys.length ≤ fuel := by
          simp only [List.length_cons] at hfuel
          omega
        have hv := ih xs ys (i + 1) (j + 1) hfuel' hx' hy'
          (drop_eq_cons_lt_length hx) (drop_eq_cons_lt_length hy)
        exact hunksValid_shift hx hy hv
      · rw [if_neg heq]
        by_cases hge : lcsLen xs (y :: ys) ≥ lcsLen (x :: xs) ys
        · rw [if_pos hge]
          have hx' := drop_succ_of_drop_cons hx
          have hfuel' : xs.length + (y :: ys).length ≤ fuel := by
            simp only [List.length_cons] at hfuel ⊢
            omega
          have hv := ih xs (y :: ys) (i + 1) j hfuel' hx' hy
            (drop_eq_cons_lt_length hx) hj
          exact pushDel_valid (drop_eq_cons_lt_length hx) hj hv
        · rw [if_neg hge]
          have hy' := drop_succ_of_drop_cons hy
          have hfuel' : (x :: xs).length + ys.length ≤ fuel := by
            simp only [List.length_cons] at hfuel ⊢
            omega
          have hv := ih (x :: xs) ys i (j + 1) hfuel' hx hy'
            hi (drop_eq_cons_lt_length hy)
          exact pushIns_valid hi (drop_eq_cons_lt_length hy) hv

/-- `seqDiff` yields a valid edit script between any two sequences. -/
theorem seqDiff_valid [DecidableEq α] (xs ys : List α) :
    HunksValid xs ys 0 0 (seqDiff xs ys) :=
  diffAuxF_valid _ xs ys 0 0 xs ys (Nat.le_refl _) rfl rfl
    (Nat.zero_le _) (Nat.zero_le _)

/-- Diffing a sequence against itself yields the empty edit script. -/
theorem diffAuxF_self [DecidableEq α] (fuel : Nat) (xs : List α) (i j : Nat)
    (hfuel : xs.length ≤ fuel) : diffAuxF fuel xs xs i j = [] := by
  induction fuel generalizing xs i j with
  | zero =>
    match xs with
    | [] => rfl
    | x :: xs => simp at hfuel
  | succ fuel ih =>
    match xs with
    | [] => rfl
    | x :: xs =>
      rw [diffAuxF, if_pos rfl]
      exact ih xs _ _ (by simp only [List.length_cons] at hfuel; omega)

theorem seqDiff_self [DecidableEq α] (xs : List α) : seqDiff xs xs = [] :=
  diffAuxF_self _ xs 0 0 (by omega)

/-! ## Decoration data model (`decorators/base.ts`) -/

/-- The `type` tag of a `LineChange` (`'unchanged' | 'insert' | 'delete'`). -/
inductive ChangeType
  | unchanged
  | insert
  | delete
deriving DecidableEq, Repr

/-- `vscode.Range` restricted to the four numbers the diff engine stores. -/
structure VRange where
  startLine : Nat
  startCharacter : Nat
  endLine : Nat
  endCharacter : Nat
deriving DecidableEq, Repr

/-- A `LineChange` record (the random `id` field is omitted). -/
structure LineChange where
  type : ChangeType
  text : Str
  originalRange : VRange
  modifiedRange : VRange
deriving DecidableEq, Repr

/-- `DecorationLineInfo`: tagged union over
`{unchanged, added, removed, modified}` (the random `id` is omitted). -/
inductive DecorationLineInfo
  | unchanged (originalLineNumber modifiedLineNumber : Nat) (text : Str)
  | added (modifiedLineNumber : Nat) (text : Str)
  | removed (originalLineNumber : Nat) (text : Str)
  | modified (originalLineNumber modifiedLineNumber : Nat)
      (oldText newText : Str) (changes : List LineChange)
deriving DecidableEq, Repr

/-- `DecorationInfo`: the four disjoint ordered buckets. -/
structure DecorationInfo where
  modifiedLines : List DecorationLineInfo
  removedLines : List DecorationLineInfo
  addedLines : List DecorationLineInfo
  unchangedLines : List DecorationLineInfo
deriving DecidableEq, Repr

/-! ## Chunking

`WORDS_AND_PUNCTUATION_REGEX = /(\w+|\s+|\W)/g` and
`CHARACTER_REGEX = /./g`, applied through
`splitLineIntoChunks(line, regex) = line.match(regex) || []`.
-/

/-- Which of the two chunking regexes is in use. -/
inductive ChunkMode
  | character
  | wordsAndPunctuation
deriving DecidableEq, Repr

/-- JS regex `\w`: `[A-Za-z0-9_]`. -/
def isWordChar (c : Char) : Bool :=
  ('a' ≤ c ∧ c ≤ 'z') ∨ ('A' ≤ c ∧ c ≤ 'Z') ∨ ('0' ≤ c ∧ c ≤ '9') ∨ c = '_'

/-- JS regex `\s`: whitespace, including the Unicode space separators,
BOM and the line terminators. -/
def isJsSpace (c : Char) : Bool :=
  c = ' ' ∨ c = '\t' ∨ c = '\n' ∨ c = '\x0B' ∨ c = '\x0C' ∨ c = '\r' ∨
  c = '\u00A0' ∨ c = '\u1680' ∨ ('\u2000' ≤ c ∧ c ≤ '\u200A') ∨
  c = '\u2028' ∨ c = '\u2029' ∨ c = '\u202F' ∨ c = '\u205F' ∨
  c = '\u3000' ∨ c = '\uFEFF'

/-- JS line terminators — the four characters the regex `.` does NOT
match. -/
def isLineTerminator (c : Char) : Bool :=
  c = '\n' ∨ c = '\r' ∨ c = '\u2028' ∨ c = '\u2029'

/-- `line.match(/./g) || []`: every character is its own chunk, except
that `.` skips line terminators entirely. -/
def charChunks (l : Str) : List Str :=
  (l.filter (fun c => ¬ isLineTerminator c)).map (fun c => [c])

/-- Fuelled worker for `wordChunks`; the fuel bounds the input length. -/
def wordChunksF : Nat → Str → List Str
  | _, [] => []
  | 0, l => [l]
  | fuel + 1, c :: rest =>
    if isWordChar c then
      (c :: rest).takeWhile isWordChar ::
        wordChunksF fuel ((c :: rest).dropWhile isWordChar)
    else if isJsSpace c then
      (c :: rest).takeWhile isJsSpace ::
        wordChunksF fuel ((c :: rest).dropWhile isJsSpace)
    else
      [c] :: wordChunksF fuel rest

/-- `line.match(/(\w+|\s+|\W)/g) || []`: maximal word runs, maximal
whitespace runs, and single other characters, scanned left to right. -/
def wordChunks (l : Str) : List Str := wordChunksF l.length l

/-- `splitLineIntoChunks` for the two regexes in the source. -/
def splitLineIntoChunks : ChunkMode → Str → List Str
  | .character, l => charChunks l
  | .wordsAndPunctuation, l => wordChunks l

theorem length_dropWhile_le (p : α → Bool) (l : List α) :
    (l.dropWhile p).length ≤ l.length := by
  induction l with
  | nil => simp [List.dropWhile]
  | cons x xs ih =>
    rw [List.dropWhile]
    split
    · exact Nat.le_trans ih (by simp)
    · simp

theorem charChunks_flatten (l : Str)
    (h : ∀ c ∈ l, isLineTerminator c = false) :
    (charChunks l).flatten = l := by
  induction l with
  | nil => rfl
  | cons c rest ih =>
    have hc : isLineTerminator c = false := h c (by simp)
    have hrest : ∀ c ∈ rest, isLineTerminator c = false :=
      fun x hx => h x (by simp [hx])
    simp only [charChunks, List.filter_cons, hc]
    simpa [charChunks] using ih hrest

theorem wordChunksF_flatten (fuel : Nat) (l : Str) (hf : l.length ≤ fuel) :
    (wordChunksF fuel l).flatten = l := by
  induction fuel generalizing l with
  | zero =>
    match l with
    | [] => rfl
    | c :: rest => simp at hf
  | succ fuel ih =>
    match l with
    | [] => rfl
    | c :: rest =>
      rw [wordChunksF]
      split
      · rename_i hw
        have hdrop : ((c :: rest).dropWhile isWordChar).length ≤ fuel := by
          rw [List.dropWhile_cons_of_pos hw]
          have := length_dropWhile_le isWordChar rest
          simp only [List.length_cons] at hf
          omega
        simp only [List.flatten_cons, ih _ hdrop,
          List.takeWhile_append_dropWhile]
      · split
        · rename_i hs
          have hdrop : ((c :: rest).dropWhile isJsSpace).length ≤ fuel := by
            rw [List.dropWhile_cons_of_pos hs]
            have := length_dropWhile_le isJsSpace rest
            simp only [List.length_cons] at hf
            omega
          simp only [List.flatten_cons, ih _ hdrop,
            List.takeWhile_append_dropWhile]
        · have hrest : rest.length ≤ fuel := by
            simp only [List.length_cons] at hf
            omega
          simp [ih _ hrest]

/-- Word/whitespace/punctuation chunking loses no characters. -/
theorem wordChunks_flatten (l : Str) : (wordChunks l).flatten = l :=
  wordChunksF_flatten l.length l (Nat.le_refl _)

/-! ## `computeLineChanges` (diff-utils.ts lines 334–590)

The imperative walk is modelled with an explicit state record.  The
source appends to a `changes` array and occasionally merges into
`changes.at(-1)`; the model keeps the change list in reverse order
(`changesRev`, head = most recently pushed) so that the merge reads the
head, and reverses once at the end.
-/

/-- State of the `computeLineChanges` walk: the changes so far (in
reverse push order), the two character offsets and the two chunk
indices. -/
structure CLCState where
  changesRev : List LineChange
  originalOffset : Nat
  modifiedOffset : Nat
  oldIndex : Nat
  newIndex : Nat
deriving DecidableEq, Repr

/-- One iteration of the `pushUnchangedUntil` loop body: emit the chunk
at `oldIndex` (skipping empty chunks), merging into a directly preceding
`unchanged` change, and advance both indices. -/
def pushUnchangedStep (originalLineNumber modifiedLineNumber : Nat)
    (st : CLCState) (unchangedText : Str) : CLCState :=
  if unchangedText = [] then
    { st with oldIndex := st.oldIndex + 1, newIndex := st.newIndex + 1 }
  else
    let originalOffset := st.originalOffset + unchangedText.length
    let modifiedOffset := st.modifiedOffset + unchangedText.length
    let fresh : LineChange :=
      { type := ChangeType.unchanged
        text := unchangedText
        originalRange := ⟨originalLineNumber, st.originalOffset,
          originalLineNumber, originalOffset⟩
        modifiedRange := ⟨modifiedLineNumber, st.modifiedOffset,
          modifiedLineNumber, modifiedOffset⟩ }
    match st.changesRev with
    | prev :: restRev =>
      if prev.type = ChangeType.unchanged then
        let merged : LineChange :=
          { prev with
            text := prev.text ++ unchangedText
            originalRange := ⟨prev.originalRange.startLine,
              prev.originalRange.startCharacter, originalLineNumber,
              originalOffset⟩
            modifiedRange := ⟨prev.modifiedRange.startLine,
              prev.modifiedRange.startCharacter, modifiedLineNumber,
              modifiedOffset⟩ }
        { changesRev := merged :: restRev
          originalOffset := originalOffset
          modifiedOffset := modifiedOffset
          oldIndex := st.oldIndex + 1
          newIndex := st.newIndex + 1 }
      else
        { changesRev := fresh :: st.changesRev
          originalOffset := originalOffset
          modifiedOffset := modifiedOffset
          oldIndex := st.oldIndex + 1
          newIndex := st.newIndex + 1 }
    | [] =>
      { changesRev := [fresh]
        originalOffset := originalOffset
        modifiedOffset := modifiedOffset
        oldIndex := st.oldIndex + 1
        newIndex := st.newIndex + 1 }

/-- Run `n` iterations of the `pushUnchangedUntil` loop. -/
def pushUnchangedGo (oldChunks : List Str)
    (originalLineNumber modifiedLineNumber : Nat) :
    Nat → CLCState → CLCState
  | 0, st => st
  | n + 1, st =>
    pushUnchangedGo oldChunks originalLineNumber modifiedLineNumber n
      (pushUnchangedStep originalLineNumber modifiedLineNumber st
        (oldChunks.getD st.oldIndex []))

/-- `pushUnchangedUntil(targetOldIndex, targetNewIndex)`: the loop runs
while both indices are below their targets; since both advance in
lockstep it runs `min` of the two gaps many times. -/
def pushUnchangedUntil (oldChunks : List Str)
    (originalLineNumber modifiedLineNumber : Nat)
    (targetOldIndex targetNewIndex : Nat) (st : CLCState) : CLCState :=
  pushUnchangedGo oldChunks originalLineNumber modifiedLineNumber
    (min (targetOldIndex - st.oldIndex) (targetNewIndex - st.newIndex)) st

/-- Length of the common whitespace prefix of two strings
(`while … deletionText[k] === insertionText[k] && /\s/.test(…)`). -/
def wsCommonPrefixLen : Str → Str → Nat
  | c :: cs, d :: ds =>
    if c = d ∧ isJsSpace c then wsCommonPrefixLen cs ds + 1 else 0
  | _, _ => 0

/-- Length of the common whitespace suffix of the two strings beyond the
prefix, compared from the right ends (the source indexes
`deletionText[deletionText.length - 1 - suffixLength]`; equivalently the
common whitespace prefix of the reversed remainders). -/
def wsCommonSuffixLen (deletionText insertionText : Str)
    (prefixLength : Nat) : Nat :=
  wsCommonPrefixLen ((deletionText.drop prefixLength).reverse)
    ((insertionText.drop prefixLength).reverse)

/-- The "unchanged prefix" block of the per-hunk body
(`if (prefixLength > 0) { … }`). -/
def corePrefixStep (originalLineNumber modifiedLineNumber : Nat) (d : Str)
    (prefixLength : Nat) (st : CLCState) : CLCState :=
  if 0 < prefixLength then
    let pre : LineChange :=
      { type := ChangeType.unchanged
        text := d.take prefixLength
        originalRange := ⟨originalLineNumber, st.originalOffset,
          originalLineNumber, st.originalOffset + prefixLength⟩
        modifiedRange := ⟨modifiedLineNumber, st.modifiedOffset,
          modifiedLineNumber, st.modifiedOffset + prefixLength⟩ }
    { st with
      changesRev := pre :: st.changesRev
      originalOffset := st.originalOffset + prefixLength
      modifiedOffset := st.modifiedOffset + prefixLength }
  else st

/-- The "deletion core" block of the per-hunk body
(`if (deletionCore) { … }`). -/
def coreDeletionStep (originalLineNumber modifiedLineNumber : Nat)
    (deletionCore : Str) (st : CLCState) : CLCState :=
  if deletionCore ≠ [] then
    let del : LineChange :=
      { type := ChangeType.delete
        text := deletionCore
        originalRange := ⟨originalLineNumber, st.originalOffset,
          originalLineNumber, st.originalOffset + deletionCore.length⟩
        modifiedRange := ⟨modifiedLineNumber, st.modifiedOffset,
          modifiedLineNumber, st.modifiedOffset⟩ }
    { st with
      changesRev := del :: st.changesRev
      originalOffset := st.originalOffset + deletionCore.length }
  else st

/-- The "insertion core" block of the per-hunk body
(`if (insertionCore) { … }`). -/
def coreInsertionStep (originalLineNumber modifiedLineNumber : Nat)
    (insertionCore : Str) (st : CLCState) : CLCState :=
  if insertionCore ≠ [] then
    let ins : LineChange :=
      { type := ChangeType.insert
        text := insertionCore
        originalRange := ⟨originalLineNumber, st.originalOffset,
          originalLineNumber, st.originalOffset⟩
        modifiedRange := ⟨modifiedLineNumber, st.modifiedOffset,
          modifiedLineNumber, st.modifiedOffset + insertionCore.length⟩ }
    { st with
      changesRev := ins :: st.changesRev
      modifiedOffset := st.modifiedOffset + insertionCore.length }
  else st

/-- The "unchanged suffix" block of the per-hunk body
(`if (suffixLength > 0) { … }`). -/
def coreSuffixStep (originalLineNumber modifiedLineNumber : Nat)
    (suffixText : Str) (suffixLength : Nat) (st : CLCState) : CLCState :=
  if 0 < suffixLength then
    let suf : LineChange :=
      { type := ChangeType.unchanged
        text := suffixText
        originalRange := ⟨originalLineNumber, st.originalOffset,
          originalLineNumber, st.originalOffset + suffixLength⟩
        modifiedRange := ⟨modifiedLineNumber, st.modifiedOffset,
          modifiedLineNumber, st.modifiedOffset + suffixLength⟩ }
    { st with
      changesRev := suf :: st.changesRev
      originalOffset := st.originalOffset + suffixLength
      modifiedOffset := st.modifiedOffset + suffixLength }
  else st

/-- The per-hunk body of `computeLineChanges` after `pushUnchangedUntil`
and the index updates: unchanged whitespace prefix, deletion core,
insertion core, unchanged whitespace suffix. -/
def processChunkHunkCore (originalLineNumber modifiedLineNumber : Nat)
    (deletionText insertionText : Str) (st : CLCState) : CLCState :=
  if deletionText = [] ∧ insertionText = [] then st
  else
    let prefixLength := wsCommonPrefixLen deletionText insertionText
    let suffixLength := wsCommonSuffixLen deletionText insertionText prefixLength
    let st1 := corePrefixStep originalLineNumber modifiedLineNumber
      deletionText prefixLength st
    let st2 := coreDeletionStep originalLineNumber modifiedLineNumber
      ((deletionText.drop prefixLength).take
        (deletionText.length - suffixLength - prefixLength)) st1
    let st3 := coreInsertionStep originalLineNumber modifiedLineNumber
      ((insertionText.drop prefixLength).take
        (insertionText.length - suffixLength - prefixLength)) st2
    coreSuffixStep originalLineNumber modifiedLineNumber
      (deletionText.drop (deletionText.length - suffixLength)) suffixLength st3

/-- One iteration of the trailing loop of `computeLineChanges`: pushes a
fresh `unchanged` change per chunk (no merging with the previous one,
unlike `pushUnchangedUntil`), and advances both indices. -/
def pushTrailingStep (originalLineNumber modifiedLineNumber : Nat)
    (st : CLCState) (unchangedText : Str) : CLCState :=
  if unchangedText = [] then
    { st with oldIndex := st.oldIndex + 1, newIndex := st.newIndex + 1 }
  else
    let fresh : LineChange :=
      { type := ChangeType.unchanged
        text := unchangedText
        originalRange := ⟨originalLineNumber, st.originalOffset,
          originalLineNumber, st.originalOffset + unchangedText.length⟩
        modifiedRange := ⟨modifiedLineNumber, st.modifiedOffset,
          modifiedLineNumber, st.modifiedOffset + unchangedText.length⟩ }
    { changesRev := fresh :: st.changesRev
      originalOffset := st.originalOffset + unchangedText.length
      modifiedOffset := st.modifiedOffset + unchangedText.length
      oldIndex := st.oldIndex + 1
      newIndex := st.newIndex + 1 }

/-- Run `n` iterations of the trailing loop. -/
def pushTrailingGo (oldChunks : List Str)
    (originalLineNumber modifiedLineNumber : Nat) :
    Nat → CLCState → CLCState
  | 0, st => st
  | n + 1, st =>
    pushTrailingGo oldChunks originalLineNumber modifiedLineNumber n
      (pushTrailingStep originalLineNumber modifiedLineNumber st
        (oldChunks.getD st.oldIndex []))

/-- The per-hunk step of `computeLineChanges`. -/
def clcHunkStep (oldChunks newChunks : List Str)
    (originalLineNumber modifiedLineNumber : Nat) (h : Hunk)
    (st : CLCState) : CLCState :=
  let st' := pushUnchangedUntil oldChunks originalLineNumber
    modifiedLineNumber h.oStart h.mStart st
  let deletionText := ((oldChunks.drop h.oStart).take (h.oEnd - h.oStart)).flatten
  let insertionText := ((newChunks.drop h.mStart).take (h.mEnd - h.mStart)).flatten
  let st'' := { st' with oldIndex := h.oEnd, newIndex := h.mEnd }
  processChunkHunkCore originalLineNumber modifiedLineNumber
    deletionText insertionText st''

/-- The hunk loop of `computeLineChanges`. -/
def clcGo (oldChunks newChunks : List Str)
    (originalLineNumber modifiedLineNumber : Nat) :
    List Hunk → CLCState → CLCState
  | [], st => st
  | h :: t, st =>
    clcGo oldChunks newChunks originalLineNumber modifiedLineNumber t
      (clcHunkStep oldChunks newChunks originalLineNumber modifiedLineNumber h st)

/-- `computeLineChanges`: intra-line insertions/deletions between two
chunk lists. -/
def computeLineChanges (oldChunks newChunks : List Str)
    (originalLineNumber modifiedLineNumber : Nat) : List LineChange :=
  let st0 : CLCState := ⟨[], 0, 0, 0, 0⟩
  let st1 := clcGo oldChunks newChunks originalLineNumber modifiedLineNumber
    (seqDiff oldChunks newChunks) st0
  let st2 := pushTrailingGo oldChunks originalLineNumber modifiedLineNumber
    (min (oldChunks.length - st1.oldIndex) (newChunks.length - st1.newIndex)) st1
  st2.changesRev.reverse

/-! ## Grouping, the simple-diff predicate, and `createModifiedLineInfo` -/

/-- Merge one change into the current group (`{...change, text:
currentGroup.text + change.text, ranges spanning both}`). -/
def mergeGroup (cur c : LineChange) : LineChange :=
  { c with
    text := cur.text ++ c.text
    originalRange := ⟨cur.originalRange.startLine,
      cur.originalRange.startCharacter, c.originalRange.endLine,
      c.originalRange.endCharacter⟩
    modifiedRange := ⟨cur.modifiedRange.startLine,
      cur.modifiedRange.startCharacter, c.modifiedRange.endLine,
      c.modifiedRange.endCharacter⟩ }

/-- Worker for `groupLineChanges`, carrying the current group. -/
def groupGo (cur : LineChange) : List LineChange → List LineChange
  | [] => [cur]
  | c :: rest =>
    if cur.type = c.type then groupGo (mergeGroup cur c) rest
    else cur :: groupGo c rest

/-- `groupLineChanges`: merges consecutive changes of the same type. -/
def groupLineChanges : List LineChange → List LineChange
  | [] => []
  | c :: rest => groupGo c rest

/-- The scan state of `isSimpleLineDiff` after the first grouped change:
`lastType` and whether the last change completed a "replacement". -/
def simpleGo : ChangeType → Bool → List LineChange → Bool
  | _, _, [] => true
  | lastType, lastIsReplacement, c :: rest =>
    let incomingModification := c.type ≠ ChangeType.unchanged
    if lastIsReplacement ∧ incomingModification then false
    else if c.type = ChangeType.unchanged then
      let isSuitableSeparator := c.text.any isJsSpace
      let isLastChange := rest = []
      if ¬ isSuitableSeparator ∧ ¬ isLastChange then false
      else simpleGo ChangeType.unchanged false rest
    else simpleGo c.type (lastType ≠ ChangeType.unchanged) rest

/-- `isSimpleLineDiff`: whether a line-level change list is simple enough
to present (diff-utils.ts lines 251–300). -/
def isSimpleLineDiff (changes : List LineChange) : Bool :=
  if changes.length ≤ 1 then true
  else
    match groupLineChanges changes with
    | [] => true
    | first :: rest => simpleGo first.type false rest

/-- `getModifiedLineChanges`: chunk both line texts and diff the chunks. -/
def getModifiedLineChanges (mode : ChunkMode)
    (originalLineNumber modifiedLineNumber : Nat)
    (originalText modifiedText : Str) : List LineChange :=
  computeLineChanges (splitLineIntoChunks mode originalText)
    (splitLineIntoChunks mode modifiedText)
    originalLineNumber modifiedLineNumber

/-- `createModifiedLineInfo`: first diff at character granularity; if the
result fails `isSimpleLineDiff`, recompute with the configured (word)
chunking. -/
def createModifiedLineInfo (mode : ChunkMode)
    (originalLineNumber modifiedLineNumber : Nat)
    (originalText modifiedText : Str) : DecorationLineInfo :=
  let charChanges := getModifiedLineChanges ChunkMode.character
    originalLineNumber modifiedLineNumber originalText modifiedText
  let changes :=
    if isSimpleLineDiff charChanges then charChanges
    else getModifiedLineChanges mode originalLineNumber modifiedLineNumber
      originalText modifiedText
  .modified originalLineNumber modifiedLineNumber originalText modifiedText
    changes

/-! ## `computeDiffOperations` and `getDecorationInfo` -/

/-- Emit `n` unchanged line entries walking both indices in lockstep
(the source's `while (originalIndex < … && modifiedIndex < …)` loops,
whose bodies read `modifiedLines[modifiedIndex]`). -/
def unchangedRunEmit (modifLines : List Str) :
    Nat → Nat → Nat → List DecorationLineInfo
  | 0, _, _ => []
  | n + 1, oi, mi =>
    .unchanged oi mi (modifLines.getD mi []) ::
      unchangedRunEmit modifLines n (oi + 1) (mi + 1)

/-- The positionally paired lines of a hunk (`while (i < min(numDeletions,
numInsertions))`): a `modified` entry when the texts differ, `unchanged`
otherwise. -/
def pairsEmit (origLines modifLines : List Str) (mode : ChunkMode) :
    Nat → Nat → Nat → List DecorationLineInfo
  | 0, _, _ => []
  | n + 1, oi, mi =>
    let originalLine := origLines.getD oi []
    let modifiedLine := modifLines.getD mi []
    (if originalLine ≠ modifiedLine then
      createModifiedLineInfo mode oi mi originalLine modifiedLine
    else
      .unchanged oi mi modifiedLine) ::
      pairsEmit origLines modifLines mode n (oi + 1) (mi + 1)

/-- The excess deletions of a hunk, as `removed` entries. -/
def removedEmit (origLines : List Str) : Nat → Nat → List DecorationLineInfo
  | 0, _ => []
  | n + 1, oi =>
    .removed oi (origLines.getD oi []) :: removedEmit origLines n (oi + 1)

/-- The excess insertions of a hunk, as `added` entries. -/
def addedEmit (modifLines : List Str) : Nat → Nat → List DecorationLineInfo
  | 0, _ => []
  | n + 1, mi =>
    .added mi (modifLines.getD mi []) :: addedEmit modifLines n (mi + 1)

/-- The lines produced for one diff hunk: positionally paired
modified/unchanged lines, then excess removals, then excess insertions. -/
def processHunkLines (origLines modifLines : List Str) (mode : ChunkMode)
    (h : Hunk) : List DecorationLineInfo :=
  let numDeletions := h.oEnd - h.oStart
  let numInsertions := h.mEnd - h.mStart
  let numPairs := min numDeletions numInsertions
  pairsEmit origLines modifLines mode numPairs h.oStart h.mStart
    ++ removedEmit origLines (numDeletions - numPairs) (h.oStart + numPairs)
    ++ addedEmit modifLines (numInsertions - numPairs) (h.mStart + numPairs)

/-- The hunk walk of `computeDiffOperations`. -/
def computeDiffOperationsGo (origLines modifLines : List Str)
    (mode : ChunkMode) : List Hunk → Nat → Nat → List DecorationLineInfo
  | [], oi, mi =>
    unchangedRunEmit modifLines
      (min (origLines.length - oi) (modifLines.length - mi)) oi mi
  | h :: t, oi, mi =>
    unchangedRunEmit modifLines (min (h.oStart - oi) (h.mStart - mi)) oi mi
      ++ processHunkLines origLines modifLines mode h
      ++ computeDiffOperationsGo origLines modifLines mode t h.oEnd h.mEnd

/-- `computeDiffOperations`: the diff operations between two arrays of
lines. -/
def computeDiffOperations (origLines modifLines : List Str)
    (mode : ChunkMode) : List DecorationLineInfo :=
  computeDiffOperationsGo origLines modifLines mode
    (seqDiff origLines modifLines) 0 0

/-- Whether a line entry is in the `modified` bucket. -/
def isModifiedLine : DecorationLineInfo → Bool
  | .modified _ _ _ _ _ => true
  | _ => false

/-- Whether a line entry is in the `removed` bucket. -/
def isRemovedLine : DecorationLineInfo → Bool
  | .removed _ _ => true
  | _ => false

/-- Whether a line entry is in the `added` bucket. -/
def isAddedLine : DecorationLineInfo → Bool
  | .added _ _ => true
  | _ => false

/-- Whether a line entry is in the `unchanged` bucket. -/
def isUnchangedLine : DecorationLineInfo → Bool
  | .unchanged _ _ _ => true
  | _ => false

/-- `getDecorationInfo`: split both texts into lines, diff them, and
bucket the per-line results by type (pushing preserves order, so each
bucket is the in-order filter of the line-info sequence). -/
def getDecorationInfo (originalText modifiedText : Str)
    (mode : ChunkMode) : DecorationInfo :=
  let originalLines := splitLines originalText
  let modifiedLines := splitLines modifiedText
  let lineInfos := computeDiffOperations originalLines modifiedLines mode
  { modifiedLines := lineInfos.filter isModifiedLine
    removedLines := lineInfos.filter isRemovedLine
    addedLines := lineInfos.filter isAddedLine
    unchangedLines := lineInfos.filter isUnchangedLine }

/-! ## `sortDiff` -/

/-- The tie-breaking priority `sortDiff` actually uses
(`typeOrder = {removed: 0, added: 1, modified: 2, unchanged: 3}`). -/
def typeOrder : DecorationLineInfo → Nat
  | .removed _ _ => 0
  | .added _ _ => 1
  | .modified _ _ _ _ _ => 2
  | .unchanged _ _ _ => 3

/-- The line number `sortDiff` compares on: the original line number for
removed entries, the modified line number otherwise. -/
def sortLineNumber : DecorationLineInfo → Nat
  | .removed o _ => o
  | .added m _ => m
  | .modified _ m _ _ _ => m
  | .unchanged _ m _ => m

/-- The comparator of `sortDiff`, as a single numeric key:
line number first, `typeOrder` as the tie-break. -/
def sortDiffKey (a : DecorationLineInfo) : Nat :=
  sortLineNumber a * 4 + typeOrder a

/-- Stable insertion into a key-sorted list: the new element goes after
every element with a key less than or equal to its own, exactly as a
stable comparator sort places it. -/
def insertByKey (key : α → Nat) (x : α) : List α → List α
  | [] => [x]
  | y :: ys => if key y ≤ key x then y :: insertByKey key x ys else x :: y :: ys

/-- Stable sort by a numeric key (models `Array.prototype.sort`, which
ECMAScript requires to be stable). -/
def sortByKey (key : α → Nat) (l : List α) : List α :=
  l.foldl (fun acc x => insertByKey key x acc) []

/-- `sortDiff`: all four buckets concatenated and sorted by line number,
ties broken removed → added → modified → unchanged. -/
def sortDiff (d : DecorationInfo) : List DecorationLineInfo :=
  sortByKey sortDiffKey
    (d.addedLines ++ d.modifiedLines ++ d.unchangedLines ++ d.removedLines)

/-! ## Projections of the line entries and the round-trip lemmas -/

/-- The original-side content of a line entry: its original line number
and text (`oldText` for modified entries); `added` entries have none. -/
def origEntry : DecorationLineInfo → Option (Nat × Str)
  | .unchanged o _ t => some (o, t)
  | .removed o t => some (o, t)
  | .modified o _ oldText _ _ => some (o, oldText)
  | .added _ _ => none

/-- The modified-side content of a line entry: its modified line number
and text (`newText` for modified entries); `removed` entries have none. -/
def modEntry : DecorationLineInfo → Option (Nat × Str)
  | .unchanged _ m t => some (m, t)
  | .added m t => some (m, t)
  | .modified _ m _ newText _ => some (m, newText)
  | .removed _ _ => none

/-- Original-side projection of a line-entry sequence. -/
def origEntries (l : List DecorationLineInfo) : List (Nat × Str) :=
  l.filterMap origEntry

/-- Modified-side projection of a line-entry sequence. -/
def modEntries (l : List DecorationLineInfo) : List (Nat × Str) :=
  l.filterMap modEntry

/-- Pair every element with its position, starting at `i`. -/
def enumF (i : Nat) : List α → List (Nat × α)
  | [] => []
  | x :: xs => (i, x) :: enumF (i + 1) xs

theorem enumF_map_snd (i : Nat) (l : List α) :
    (enumF i l).map Prod.snd = l := by
  induction l generalizing i with
  | nil => rfl
  | cons x xs ih => simp [enumF, ih]

theorem enumF_key_ge (i : Nat) (l : List α) :
    ∀ p ∈ enumF i l, i ≤ p.1 := by
  induction l generalizing i with
  | nil => simp [enumF]
  | cons x xs ih =>
    intro p hp
    rw [enumF] at hp
    rcases List.mem_cons.mp hp with h | h
    · subst h; exact Nat.le_refl i
    · exact Nat.le_trans (Nat.le_succ i) (ih (i + 1) p h)

theorem enumF_pairwise (i : Nat) (l : List α) :
    (enumF i l).Pairwise (fun a b => a.1 < b.1) := by
  induction l generalizing i with
  | nil => exact List.Pairwise.nil
  | cons x xs ih =>
    rw [enumF]
    exact List.Pairwise.cons
      (fun p hp => Nat.lt_of_lt_of_le (Nat.lt_succ_self i) (enumF_key_ge _ _ p hp))
      (ih (i + 1))

theorem enumF_append (i : Nat) (l₁ l₂ : List α) :
    enumF i (l₁ ++ l₂) = enumF i l₁ ++ enumF (i + l₁.length) l₂ := by
  induction l₁ generalizing i with
  | nil => simp [enumF]
  | cons x xs ih =>
    show (i, x) :: enumF (i + 1) (xs ++ l₂)
      = (i, x) :: (enumF (i + 1) xs ++ enumF (i + (xs.length + 1)) l₂)
    rw [ih]
    have harith : i + 1 + xs.length = i + (xs.length + 1) := by omega
    rw [harith]

theorem take_drop_getD_cons {l : List α} {i n : Nat} (d : α)
    (h : i < l.length) :
    (l.drop i).take (n + 1) = l.getD i d :: (l.drop (i + 1)).take n := by
  rw [List.drop_eq_getElem_cons h, List.take_succ_cons, List.getD_eq_getElem l d h]

theorem getD_eq_of_take_eq {l₁ l₂ : List α} {i j n : Nat} {d : α}
    (h : (l₁.drop i).take (n + 1) = (l₂.drop j).take (n + 1))
    (hi : i < l₁.length) (hj : j < l₂.length) :
    l₁.getD i d = l₂.getD j d := by
  rw [take_drop_getD_cons d hi, take_drop_getD_cons d hj] at h
  injection h

theorem take_tail_of_take_eq {l₁ l₂ : List α} {i j n : Nat}
    (h : (l₁.drop i).take (n + 1) = (l₂.drop j).take (n + 1))
    (hi : i < l₁.length) (hj : j < l₂.length) :
    (l₁.drop (i + 1)).take n = (l₂.drop (j + 1)).take n := by
  rw [List.drop_eq_getElem_cons hi, List.drop_eq_getElem_cons hj,
    List.take_succ_cons, List.take_succ_cons] at h
  injection h

/-- Entries of the lockstep unchanged-line run, assuming the two sides
agree on the run. -/
theorem unchangedRunEmit_entries (origLines modifLines : List Str)
    (n oi mi : Nat)
    (heq : (origLines.drop oi).take n = (modifLines.drop mi).take n)
    (hoi : oi + n ≤ origLines.length) (hmi : mi + n ≤ modifLines.length) :
    origEntries (unchangedRunEmit modifLines n oi mi)
      = enumF oi ((origLines.drop oi).take n)
    ∧ modEntries (unchangedRunEmit modifLines n oi mi)
      = enumF mi ((modifLines.drop mi).take n) := by
  induction n generalizing oi mi with
  | zero => simp [unchangedRunEmit, origEntries, modEntries, enumF]
  | succ n ih =>
    have hoi' : oi < origLines.length := by omega
    have hmi' : mi < modifLines.length := by omega
    have hgd : origLines.getD oi ([] : Str) = modifLines.getD mi [] :=
      getD_eq_of_take_eq heq hoi' hmi'
    have heq' : (origLines.drop (oi + 1)).take n
        = (modifLines.drop (mi + 1)).take n :=
      take_tail_of_take_eq heq hoi' hmi'
    obtain ⟨iho, ihm⟩ := ih (oi + 1) (mi + 1) heq' (by omega) (by omega)
    constructor
    · rw [unchangedRunEmit, take_drop_getD_cons ([] : Str) hoi']
      simp only [origEntries, List.filterMap_cons, origEntry]
      rw [enumF]
      simp only [origEntries] at iho
      rw [iho, hgd]
    · rw [unchangedRunEmit, take_drop_getD_cons ([] : Str) hmi']
      simp only [modEntries, List.filterMap_cons, modEntry]
      rw [enumF]
      simp only [modEntries] at ihm
      rw [ihm]

/-- Entries of the positionally paired block of a hunk. -/
theorem pairsEmit_entries (origLines modifLines : List Str)
    (mode : ChunkMode) (n oi mi : Nat)
    (hoi : oi + n ≤ origLines.length) (hmi : mi + n ≤ modifLines.length) :
    origEntries (pairsEmit origLines modifLines mode n oi mi)
      = enumF oi ((origLines.drop oi).take n)
    ∧ modEntries (pairsEmit origLines modifLines mode n oi mi)
      = enumF mi ((modifLines.drop mi).take n) := by
  induction n generalizing oi mi with
  | zero => simp [pairsEmit, origEntries, modEntries, enumF]
  | succ n ih =>
    have hoi' : oi < origLines.length := by omega
    have hmi' : mi < modifLines.length := by omega
    obtain ⟨iho, ihm⟩ := ih (oi + 1) (mi + 1) (by omega) (by omega)
    rw [pairsEmit]
    constructor
    · rw [take_drop_getD_cons ([] : Str) hoi']
      by_cases hne : origLines.getD oi ([] : Str) = modifLines.getD mi []
      · simp only [hne, ne_eq, not_true_eq_false, if_neg, ite_false]
        simp only [origEntries, List.filterMap_cons, origEntry, if_false]
        rw [enumF]
        simp only [origEntries] at iho
        rw [iho]
      · simp only [ne_eq, hne, not_false_eq_true, if_pos, ite_true]
        simp only [origEntries, List.filterMap_cons, createModifiedLineInfo,
          origEntry]
        rw [enumF]
        simp only [origEntries] at iho
        rw [iho]
    · rw [take_drop_getD_cons ([] : Str) hmi']
      by_cases hne : origLines.getD oi ([] : Str) = modifLines.getD mi []
      · simp only [hne, ne_eq, not_true_eq_false, if_neg, ite_false]
        simp only [modEntries, List.filterMap_cons, modEntry]
        rw [enumF]
        simp only [modEntries] at ihm
        rw [ihm]
      · simp only [ne_eq, hne, not_false_eq_true, if_pos, ite_true]
        simp only [modEntries, List.filterMap_cons, createModifiedLineInfo,
          modEntry]
        rw [enumF]
        simp only [modEntries] at ihm
        rw [ihm]

/-- Entries of the excess-removal block. -/
theorem removedEmit_entries (origLines : List Str) (n oi : Nat)
    (hoi : oi + n ≤ origLines.length) :
    origEntries (removedEmit origLines n oi)
      = enumF oi ((origLines.drop oi).take n)
    ∧ modEntries (removedEmit origLines n oi) = [] := by
  induction n generalizing oi with
  | zero => simp [removedEmit, origEntries, modEntries, enumF]
  | succ n ih =>
    have hoi' : oi < origLines.length := by omega
    obtain ⟨iho, ihm⟩ := ih (oi + 1) (by omega)
    rw [removedEmit]
    constructor
    · rw [take_drop_getD_cons ([] : Str) hoi']
      simp only [origEntries, List.filterMap_cons, origEntry]
      rw [enumF]
      simp only [origEntries] at iho
      rw [iho]
    · simp only [modEntries, List.filterMap_cons, modEntry]
      simpa [modEntries] using ihm

/-- Entries of the excess-insertion block. -/
theorem addedEmit_entries (modifLines : List Str) (n mi : Nat)
    (hmi : mi + n ≤ modifLines.length) :
    modEntries (addedEmit modifLines n mi)
      = enumF mi ((modifLines.drop mi).take n)
    ∧ origEntries (addedEmit modifLines n mi) = [] := by
  induction n generalizing mi with
  | zero => simp [addedEmit, origEntries, modEntries, enumF]
  | succ n ih =>
    have hmi' : mi < modifLines.length := by omega
    obtain ⟨ihm, iho⟩ := ih (mi + 1) (by omega)
    rw [addedEmit]
    constructor
    · rw [take_drop_getD_cons ([] : Str) hmi']
      simp only [modEntries, List.filterMap_cons, modEntry]
      rw [enumF]
      simp only [modEntries] at ihm
      rw [ihm]
    · simp only [origEntries, List.filterMap_cons, origEntry]
      simpa [origEntries] using iho

theorem drop_decompose (l : List α) (a b : Nat) (hab : a ≤ b)
    (hb : b ≤ l.length) :
    l.drop a = (l.drop a).take (b - a) ++ l.drop b := by
  have h1 := List.take_append_drop (b - a) (l.drop a)
  rw [List.drop_drop] at h1
  have harith : a + (b - a) = b := by omega
  rw [harith] at h1
  exact h1.symm

theorem enumF_decompose (l : List α) (a b : Nat) (hab : a ≤ b)
    (hb : b ≤ l.length) :
    enumF a (l.drop a)
      = enumF a ((l.drop a).take (b - a)) ++ enumF b (l.drop b) := by
  have h1 := congrArg (enumF a) (drop_decompose l a b hab hb)
  rw [enumF_append] at h1
  have hlen : ((l.drop a).take (b - a)).length = b - a := by
    rw [List.length_take, List.length_drop]
    omega
  rw [hlen] at h1
  have harith : a + (b - a) = b := by omega
  rw [harith] at h1
  exact h1

/-- Entries of the full per-hunk block. -/
theorem enumF_take_decompose (l : List α) (a g n : Nat) (hg : g ≤ n)
    (hn : a + n ≤ l.length) :
    enumF a ((l.drop a).take n)
      = enumF a ((l.drop a).take g)
        ++ enumF (a + g) ((l.drop (a + g)).take (n - g)) := by
  have hsplit : (l.drop a).take n
      = (l.drop a).take g ++ ((l.drop a).drop g).take (n - g) := by
    have harith : n = g + (n - g) := by omega
    rw [harith, List.take_add, ← harith]
  rw [hsplit, enumF_append, List.drop_drop]
  have hlen : ((l.drop a).take g).length = g := by
    rw [List.length_take, List.length_drop]
    omega
  rw [hlen]

theorem processHunkLines_entries (origLines modifLines : List Str)
    (mode : ChunkMode) (h : Hunk)
    (h5 : h.oStart ≤ h.oEnd) (h6 : h.oEnd ≤ origLines.length)
    (h7 : h.mStart ≤ h.mEnd) (h8 : h.mEnd ≤ modifLines.length) :
    origEntries (processHunkLines origLines modifLines mode h)
      = enumF h.oStart ((origLines.drop h.oStart).take (h.oEnd - h.oStart))
    ∧ modEntries (processHunkLines origLines modifLines mode h)
      = enumF h.mStart ((modifLines.drop h.mStart).take (h.mEnd - h.mStart)) := by
  rw [processHunkLines]
  have hm1 : min (h.oEnd - h.oStart) (h.mEnd - h.mStart) ≤ h.oEnd - h.oStart :=
    Nat.min_le_left _ _
  have hm2 : min (h.oEnd - h.oStart) (h.mEnd - h.mStart) ≤ h.mEnd - h.mStart :=
    Nat.min_le_right _ _
  obtain ⟨po, pm⟩ := pairsEmit_entries origLines modifLines mode
    (min (h.oEnd - h.oStart) (h.mEnd - h.mStart)) h.oStart h.mStart
    (by omega) (by omega)
  obtain ⟨ro, rm⟩ := removedEmit_entries origLines
    (h.oEnd - h.oStart - min (h.oEnd - h.oStart) (h.mEnd - h.mStart))
    (h.oStart + min (h.oEnd - h.oStart) (h.mEnd - h.mStart)) (by omega)
  obtain ⟨am, ao⟩ := addedEmit_entries modifLines
    (h.mEnd - h.mStart - min (h.oEnd - h.oStart) (h.mEnd - h.mStart))
    (h.mStart + min (h.oEnd - h.oStart) (h.mEnd - h.mStart)) (by omega)
  constructor
  · simp only [origEntries, List.filterMap_append] at po ro ao ⊢
    rw [po, ro, ao]
    simp only [List.append_nil, List.nil_append]
    exact (enumF_take_decompose origLines h.oStart
      (min (h.oEnd - h.oStart) (h.mEnd - h.mStart)) (h.oEnd - h.oStart)
      hm1 (by omega)).symm
  · simp only [modEntries, List.filterMap_append] at pm rm am ⊢
    rw [pm, rm, am]
    simp only [List.append_nil, List.nil_append]
    exact (enumF_take_decompose modifLines h.mStart
      (min (h.oEnd - h.oStart) (h.mEnd - h.mStart)) (h.mEnd - h.mStart)
      hm2 (by omega)).symm

/-- Master walk lemma: the line entries produced from a valid edit
script enumerate exactly the original lines (original side) and the
modified lines (modified side), from the walk's base positions on. -/
theorem cdoGo_entries (origLines modifLines : List Str) (mode : ChunkMode)
    (hunks : List Hunk) (oi mi : Nat)
    (hv : HunksValid origLines modifLines oi mi hunks)
    (hoi : oi ≤ origLines.length) (hmi : mi ≤ modifLines.length) :
    origEntries (computeDiffOperationsGo origLines modifLines mode hunks oi mi)
      = enumF oi (origLines.drop oi)
    ∧ modEntries (computeDiffOperationsGo origLines modifLines mode hunks oi mi)
      = enumF mi (modifLines.drop mi) := by
  induction hunks generalizing oi mi with
  | nil =>
    cases hv with
    | nil _ _ heq =>
      have hlen : origLines.length - oi = modifLines.length - mi := by
        have := congrArg List.length heq
        simp only [List.length_drop] at this
        omega
      rw [computeDiffOperationsGo]
      have hmin : min (origLines.length - oi) (modifLines.length - mi)
          = origLines.length - oi := by omega
      rw [hmin]
      have htake1 : (origLines.drop oi).take (origLines.length - oi)
          = origLines.drop oi := by
        apply List.take_of_length_le
        rw [List.length_drop]
      have htake2 : (modifLines.drop mi).take (origLines.length - oi)
          = modifLines.drop mi := by
        apply List.take_of_length_le
        rw [List.length_drop]
        omega
      have heq' : (origLines.drop oi).take (origLines.length - oi)
          = (modifLines.drop mi).take (origLines.length - oi) := by
        rw [htake1, htake2, heq]
      obtain ⟨ho, hm⟩ := unchangedRunEmit_entries origLines modifLines
        (origLines.length - oi) oi mi heq' (by omega) (by omega)
      rw [htake1] at ho
      rw [htake2] at hm
      exact ⟨ho, hm⟩
  | cons h t ih =>
    cases hv with
    | cons _ _ _ _ h1 h2 h3 h4 h5 h6 h7 h8 htail =>
      rw [computeDiffOperationsGo]
      have hgap : min (h.oStart - oi) (h.mStart - mi) = h.oStart - oi := by
        omega
      rw [hgap]
      have hgapeq : (origLines.drop oi).take (h.oStart - oi)
          = (modifLines.drop mi).take (h.oStart - oi) := by
        rw [h4, h3]
      obtain ⟨go, gm⟩ := unchangedRunEmit_entries origLines modifLines
        (h.oStart - oi) oi mi hgapeq (by omega) (by omega)
      obtain ⟨bo, bm⟩ := processHunkLines_entries origLines modifLines mode h
        h5 h6 h7 h8
      obtain ⟨tlo, tlm⟩ := ih h.oEnd h.mEnd htail h6 h8
      constructor
      · simp only [origEntries, List.filterMap_append] at go bo tlo ⊢
        rw [go, bo, tlo]
        have hd1 := enumF_decompose origLines oi h.oStart (by omega) (by omega)
        have hd2 := enumF_decompose origLines h.oStart h.oEnd h5 h6
        rw [hd1, hd2, List.append_assoc]
      · simp only [modEntries, List.filterMap_append] at gm bm tlm ⊢
        rw [gm, bm, tlm]
        have hgap2 : h.oStart - oi = h.mStart - mi := h3
        rw [hgap2]
        have hd1 := enumF_decompose modifLines mi h.mStart (by omega) (by omega)
        have hd2 := enumF_decompose modifLines h.mStart h.mEnd h7 h8
        rw [hd1, hd2, List.append_assoc]

/-- The line entries of `computeDiffOperations` enumerate the original
lines on the original side and the modified lines on the modified side. -/
theorem computeDiffOperations_entries (origLines modifLines : List Str)
    (mode : ChunkMode) :
    origEntries (computeDiffOperations origLines modifLines mode)
      = enumF 0 origLines
    ∧ modEntries (computeDiffOperations origLines modifLines mode)
      = enumF 0 modifLines := by
  have h := cdoGo_entries origLines modifLines mode
    (seqDiff origLines modifLines) 0 0
    (seqDiff_valid origLines modifLines) (Nat.zero_le _) (Nat.zero_le _)
  simpa [computeDiffOperations] using h

/-! ## Sorting lemmas -/

theorem insertByKey_perm (key : α → Nat) (x : α) (l : List α) :
    (insertByKey key x l).Perm (x :: l) := by
  induction l with
  | nil => simp [insertByKey]
  | cons y ys ih =>
    rw [insertByKey]
    split
    · exact (ih.cons y).trans (List.Perm.swap x y ys)
    · exact List.Perm.refl _

theorem mem_insertByKey {key : α → Nat} {x z : α} {l : List α}
    (h : z ∈ insertByKey key x l) : z = x ∨ z ∈ l := by
  have := (insertByKey_perm key x l).mem_iff.mp h
  simpa using this

theorem insertByKey_sorted (key : α → Nat) (x : α) (l : List α)
    (hs : l.Pairwise (fun a b => key a ≤ key b)) :
    (insertByKey key x l).Pairwise (fun a b => key a ≤ key b) := by
  induction l with
  | nil => simp [insertByKey]
  | cons y ys ih =>
    rw [insertByKey]
    rw [List.pairwise_cons] at hs
    split
    · rename_i hyx
      refine List.Pairwise.cons ?_ (ih hs.2)
      intro z hz
      rcases mem_insertByKey hz with h | h
      · subst h; exact hyx
      · exact hs.1 z h
    · rename_i hyx
      have hxy : key x ≤ key y := Nat.le_of_lt (Nat.lt_of_not_le hyx)
      refine List.Pairwise.cons ?_ (List.Pairwise.cons hs.1 hs.2)
      intro z hz
      rcases List.mem_cons.mp hz with h | h
      · subst h; exact hxy
      · exact Nat.le_trans hxy (hs.1 z h)

theorem sortByKey_perm (key : α → Nat) (l : List α) :
    (sortByKey key l).Perm l := by
  suffices h : ∀ (l acc : List α),
      (l.foldl (fun acc x => insertByKey key x acc) acc).Perm (acc ++ l) by
    simpa using h l []
  intro l
  induction l with
  | nil => simp
  | cons x xs ih =>
    intro acc
    rw [List.foldl_cons]
    have h1 : (insertByKey key x acc ++ xs).Perm ((x :: acc) ++ xs) :=
      List.Perm.append_right xs (insertByKey_perm key x acc)
    have h2 : ((x :: acc) ++ xs).Perm (acc ++ x :: xs) := by
      show (x :: (acc ++ xs)).Perm (acc ++ x :: xs)
      exact List.perm_middle.symm
    exact (ih (insertByKey key x acc)).trans (h1.trans h2)

theorem sortByKey_sorted (key : α → Nat) (l : List α) :
    (sortByKey key l).Pairwise (fun a b => key a ≤ key b) := by
  suffices h : ∀ (l acc : List α),
      acc.Pairwise (fun a b => key a ≤ key b) →
      (l.foldl (fun acc x => insertByKey key x acc) acc).Pairwise
        (fun a b => key a ≤ key b) by
    exact h l [] List.Pairwise.nil
  intro l
  induction l with
  | nil => intro acc h; simpa using h
  | cons x xs ih =>
    intro acc h
    rw [List.foldl_cons]
    exact ih _ (insertByKey_sorted key x acc h)

/-- Two permuted lists, one strictly sorted by key and the other weakly
sorted by the same key, are equal. -/
theorem sorted_key_unique (key : α → Nat) :
    ∀ (l₀ l : List α), l.Perm l₀ →
      l₀.Pairwise (fun a b => key a < key b) →
      l.Pairwise (fun a b => key a ≤ key b) → l = l₀ := by
  intro l₀
  induction l₀ with
  | nil =>
    intro l hp _ _
    exact List.Perm.eq_nil hp
  | cons x t ih =>
    intro l hp hstrict hsort
    match l with
    | [] => exact absurd hp.symm.eq_nil (List.cons_ne_nil x t)
    | y :: l' =>
      have hstrict' := List.pairwise_cons.mp hstrict
      have hsort' := List.pairwise_cons.mp hsort
      have hyx : y = x := by
        by_contra hne
        have hy_mem : y ∈ x :: t := hp.subset (List.mem_cons_self y l')
        have hy_t : y ∈ t := by
          rcases List.mem_cons.mp hy_mem with h | h
          · exact absurd h hne
          · exact h
        have hxy : key x < key y := hstrict'.1 y hy_t
        have hx_mem : x ∈ y :: l' := hp.symm.subset (List.mem_cons_self x t)
        have hx_l' : x ∈ l' := by
          rcases List.mem_cons.mp hx_mem with h | h
          · exact absurd h.symm hne
          · exact h
        have hyx2 : key y ≤ key x := hsort'.1 x hx_l'
        omega
      subst hyx
      have hp' : l'.Perm t := hp.cons_inv
      rw [ih l' hp' hstrict'.2 hsort'.2]


@[simp] theorem isUnchangedLine_unchanged (o m : Nat) (t : Str) :
    isUnchangedLine (.unchanged o m t) = true := rfl

@[simp] theorem isUnchangedLine_added (m : Nat) (t : Str) :
    isUnchangedLine (.added m t) = false := rfl

@[simp] theorem isUnchangedLine_removed (o : Nat) (t : Str) :
    isUnchangedLine (.removed o t) = false := rfl

@[simp] theorem isUnchangedLine_modified (o m : Nat) (ot nt : Str)
    (ch : List LineChange) : isUnchangedLine (.modified o m ot nt ch) = false := rfl

@[simp] theorem isAddedLine_unchanged (o m : Nat) (t : Str) :
    isAddedLine (.unchanged o m t) = false := rfl

@[simp] theorem isAddedLine_added (m : Nat) (t : Str) :
    isAddedLine (.added m t) = true := rfl

@[simp] theorem isAddedLine_removed (o : Nat) (t : Str) :
    isAddedLine (.removed o t) = false := rfl

@[simp] theorem isAddedLine_modified (o m : Nat) (ot nt : Str)
    (ch : List LineChange) : isAddedLine (.modified o m ot nt ch) = false := rfl

@[simp] theorem isRemovedLine_unchanged (o m : Nat) (t : Str) :
    isRemovedLine (.unchanged o m t) = false := rfl

@[simp] theorem isRemovedLine_added (m : Nat) (t : Str) :
    isRemovedLine (.added m t) = false := rfl

@[simp] theorem isRemovedLine_removed (o : Nat) (t : Str) :
    isRemovedLine (.removed o t) = true := rfl

@[simp] theorem isRemovedLine_modified (o m : Nat) (ot nt : Str)
    (ch : List LineChange) : isRemovedLine (.modified o m ot nt ch) = false := rfl

@[simp] theorem isModifiedLine_unchanged (o m : Nat) (t : Str) :
    isModifiedLine (.unchanged o m t) = false := rfl

@[simp] theorem isModifiedLine_added (m : Nat) (t : Str) :
    isModifiedLine (.added m t) = false := rfl

@[simp] theorem isModifiedLine_removed (o : Nat) (t : Str) :
    isModifiedLine (.removed o t) = false := rfl

@[simp] theorem isModifiedLine_modified (o m : Nat) (ot nt : Str)
    (ch : List LineChange) : isModifiedLine (.modified o m ot nt ch) = true := rfl

@[simp] theorem origEntry_unchanged (o m : Nat) (t : Str) :
    origEntry (.unchanged o m t) = some (o, t) := rfl

@[simp] theorem origEntry_added (m : Nat) (t : Str) :
    origEntry (.added m t) = none := rfl

@[simp] theorem origEntry_removed (o : Nat) (t : Str) :
    origEntry (.removed o t) = some (o, t) := rfl

@[simp] theorem origEntry_modified (o m : Nat) (ot nt : Str)
    (ch : List LineChange) : origEntry (.modified o m ot nt ch) = some (o, ot) := rfl

@[simp] theorem modEntry_unchanged (o m : Nat) (t : Str) :
    modEntry (.unchanged o m t) = some (m, t) := rfl

@[simp] theorem modEntry_added (m : Nat) (t : Str) :
    modEntry (.added m t) = some (m, t) := rfl

@[simp] theorem modEntry_removed (o : Nat) (t : Str) :
    modEntry (.removed o t) = none := rfl

@[simp] theorem modEntry_modified (o m : Nat) (ot nt : Str)
    (ch : List LineChange) : modEntry (.modified o m ot nt ch) = some (m, nt) := rfl

/-! ## Reconstruction of the two sides from a `DecorationInfo` -/

theorem origEntries_filter_not_added (l : List DecorationLineInfo) :
    origEntries (l.filter (fun x => !(isAddedLine x))) = origEntries l := by
  induction l with
  | nil => rfl
  | cons x xs ih =>
    cases x <;>
      simp only [origEntries, List.filter_cons, List.filterMap_cons] at ih ⊢ <;>
      simp [ih]

theorem modEntries_filter_not_removed (l : List DecorationLineInfo) :
    modEntries (l.filter (fun x => !(isRemovedLine x))) = modEntries l := by
  induction l with
  | nil => rfl
  | cons x xs ih =>
    cases x <;>
      simp only [modEntries, List.filter_cons, List.filterMap_cons] at ih ⊢ <;>
      simp [ih]

/-- The `unchanged`/`removed`/`modified` buckets together are a
permutation of all non-`added` line entries. -/
theorem buckets_perm_orig (l : List DecorationLineInfo) :
    (l.filter isUnchangedLine ++ l.filter isRemovedLine
      ++ l.filter isModifiedLine).Perm
      (l.filter (fun x => !(isAddedLine x))) := by
  induction l with
  | nil => simp
  | cons x xs ih =>
    cases x with
    | unchanged o m t =>
      have e1 : List.filter isUnchangedLine (DecorationLineInfo.unchanged o m t :: xs)
          = DecorationLineInfo.unchanged o m t :: xs.filter isUnchangedLine := by simp
      have e2 : List.filter isRemovedLine (DecorationLineInfo.unchanged o m t :: xs)
          = xs.filter isRemovedLine := by simp
      have e3 : List.filter isModifiedLine (DecorationLineInfo.unchanged o m t :: xs)
          = xs.filter isModifiedLine := by simp
      have e4 : List.filter (fun x => !(isAddedLine x))
            (DecorationLineInfo.unchanged o m t :: xs)
          = DecorationLineInfo.unchanged o m t
            :: xs.filter (fun x => !(isAddedLine x)) := by simp
      rw [e1, e2, e3, e4, List.cons_append, List.cons_append]
      exact ih.cons _
    | added m t =>
      have e1 : List.filter isUnchangedLine (DecorationLineInfo.added m t :: xs)
          = xs.filter isUnchangedLine := by simp
      have e2 : List.filter isRemovedLine (DecorationLineInfo.added m t :: xs)
          = xs.filter isRemovedLine := by simp
      have e3 : List.filter isModifiedLine (DecorationLineInfo.added m t :: xs)
          = xs.filter isModifiedLine := by simp
      have e4 : List.filter (fun x => !(isAddedLine x))
            (DecorationLineInfo.added m t :: xs)
          = xs.filter (fun x => !(isAddedLine x)) := by simp
      rw [e1, e2, e3, e4]
      exact ih
    | removed o t =>
      have e1 : List.filter isUnchangedLine (DecorationLineInfo.removed o t :: xs)
          = xs.filter isUnchangedLine := by simp
      have e2 : List.filter isRemovedLine (DecorationLineInfo.removed o t :: xs)
          = DecorationLineInfo.removed o t :: xs.filter isRemovedLine := by simp
      have e3 : List.filter isModifiedLine (DecorationLineInfo.removed o t :: xs)
          = xs.filter isModifiedLine := by simp
      have e4 : List.filter (fun x => !(isAddedLine x))
            (DecorationLineInfo.removed o t :: xs)
          = DecorationLineInfo.removed o t
            :: xs.filter (fun x => !(isAddedLine x)) := by simp
      rw [e1, e2, e3, e4]
      have hmid : (xs.filter isUnchangedLine
            ++ (DecorationLineInfo.removed o t :: xs.filter isRemovedLine)).Perm
          (DecorationLineInfo.removed o t
            :: (xs.filter isUnchangedLine ++ xs.filter isRemovedLine)) :=
        List.perm_middle
      exact ((hmid.append_right _).trans (ih.cons _))
    | modified o m ot nt ch =>
      have e1 : List.filter isUnchangedLine (DecorationLineInfo.modified o m ot nt ch :: xs)
          = xs.filter isUnchangedLine := by simp
      have e2 : List.filter isRemovedLine (DecorationLineInfo.modified o m ot nt ch :: xs)
          = xs.filter isRemovedLine := by simp
      have e3 : List.filter isModifiedLine (DecorationLineInfo.modified o m ot nt ch :: xs)
          = DecorationLineInfo.modified o m ot nt ch :: xs.filter isModifiedLine := by
        simp
      have e4 : List.filter (fun x => !(isAddedLine x))
            (DecorationLineInfo.modified o m ot nt ch :: xs)
          = DecorationLineInfo.modified o m ot nt ch
            :: xs.filter (fun x => !(isAddedLine x)) := by simp
      rw [e1, e2, e3, e4]
      exact List.perm_middle.trans (ih.cons _)

/-- The `unchanged`/`added`/`modified` buckets together are a
permutation of all non-`removed` line entries. -/
theorem buckets_perm_mod (l : List DecorationLineInfo) :
    (l.filter isUnchangedLine ++ l.filter isAddedLine
      ++ l.filter isModifiedLine).Perm
      (l.filter (fun x => !(isRemovedLine x))) := by
  induction l with
  | nil => simp
  | cons x xs ih =>
    cases x with
    | unchanged o m t =>
      have e1 : List.filter isUnchangedLine (DecorationLineInfo.unchanged o m t :: xs)
          = DecorationLineInfo.unchanged o m t :: xs.filter isUnchangedLine := by simp
      have e2 : List.filter isAddedLine (DecorationLineInfo.unchanged o m t :: xs)
          = xs.filter isAddedLine := by simp
      have e3 : List.filter isModifiedLine (DecorationLineInfo.unchanged o m t :: xs)
          = xs.filter isModifiedLine := by simp
      have e4 : List.filter (fun x => !(isRemovedLine x))
            (DecorationLineInfo.unchanged o m t :: xs)
          = DecorationLineInfo.unchanged o m t
            :: xs.filter (fun x => !(isRemovedLine x)) := by simp
      rw [e1, e2, e3, e4, List.cons_append, List.cons_append]
      exact ih.cons _
    | removed o t =>
      have e1 : List.filter isUnchangedLine (DecorationLineInfo.removed o t :: xs)
          = xs.filter isUnchangedLine := by simp
      have e2 : List.filter isAddedLine (DecorationLineInfo.removed o t :: xs)
          = xs.filter isAddedLine := by simp
      have e3 : List.filter isModifiedLine (DecorationLineInfo.removed o t :: xs)
          = xs.filter isModifiedLine := by simp
      have e4 : List.filter (fun x => !(isRemovedLine x))
            (DecorationLineInfo.removed o t :: xs)
          = xs.filter (fun x => !(isRemovedLine x)) := by simp
      rw [e1, e2, e3, e4]
      exact ih
    | added m t =>
      have e1 : List.filter isUnchangedLine (DecorationLineInfo.added m t :: xs)
          = xs.filter isUnchangedLine := by simp
      have e2 : List.filter isAddedLine (DecorationLineInfo.added m t :: xs)
          = DecorationLineInfo.added m t :: xs.filter isAddedLine := by simp
      have e3 : List.filter isModifiedLine (DecorationLineInfo.added m t :: xs)
          = xs.filter isModifiedLine := by simp
      have e4 : List.filter (fun x => !(isRemovedLine x))
            (DecorationLineInfo.added m t :: xs)
          = DecorationLineInfo.added m t
            :: xs.filter (fun x => !(isRemovedLine x)) := by simp
      rw [e1, e2, e3, e4]
      have hmid : (xs.filter isUnchangedLine
            ++ (DecorationLineInfo.added m t :: xs.filter isAddedLine)).Perm
          (DecorationLineInfo.added m t
            :: (xs.filter isUnchangedLine ++ xs.filter isAddedLine)) :=
        List.perm_middle
      exact ((hmid.append_right _).trans (ih.cons _))
    | modified o m ot nt ch =>
      have e1 : List.filter isUnchangedLine (DecorationLineInfo.modified o m ot nt ch :: xs)
          = xs.filter isUnchangedLine := by simp
      have e2 : List.filter isAddedLine (DecorationLineInfo.modified o m ot nt ch :: xs)
          = xs.filter isAddedLine := by simp
      have e3 : List.filter isModifiedLine (DecorationLineInfo.modified o m ot nt ch :: xs)
          = DecorationLineInfo.modified o m ot nt ch :: xs.filter isModifiedLine := by
        simp
      have e4 : List.filter (fun x => !(isRemovedLine x))
            (DecorationLineInfo.modified o m ot nt ch :: xs)
          = DecorationLineInfo.modified o m ot nt ch
            :: xs.filter (fun x => !(isRemovedLine x)) := by simp
      rw [e1, e2, e3, e4]
      exact List.perm_middle.trans (ih.cons _)

/-- The original-side reconstruction of the claim: the original-line
entries of the `unchanged`, `removed` and `modified` buckets, taken in
original line order, joined with the given newline. -/
def originalSideText (d : DecorationInfo) (newline : Str) : Str :=
  joinSep newline
    ((sortByKey Prod.fst (origEntries
      (d.unchangedLines ++ d.removedLines ++ d.modifiedLines))).map Prod.snd)

/-- The modified-side reconstruction of the claim: the modified-line
entries of the `unchanged`, `added` and `modified` buckets, taken in
modified line order, joined with the given newline. -/
def modifiedSideText (d : DecorationInfo) (newline : Str) : Str :=
  joinSep newline
    ((sortByKey Prod.fst (modEntries
      (d.unchangedLines ++ d.addedLines ++ d.modifiedLines))).map Prod.snd)

theorem sortByKey_fst_of_perm_enumF {l : List (Nat × Str)} {i : Nat}
    {base : List Str} (hp : l.Perm (enumF i base)) :
    sortByKey Prod.fst l = enumF i base := by
  refine sorted_key_unique Prod.fst (enumF i base) (sortByKey Prod.fst l)
    ((sortByKey_perm Prod.fst l).trans hp) (enumF_pairwise i base)
    (sortByKey_sorted Prod.fst l)

theorem getDecorationInfo_unchangedLines (A B : Str) (mode : ChunkMode) :
    (getDecorationInfo A B mode).unchangedLines
      = (computeDiffOperations (splitLines A) (splitLines B) mode).filter
        isUnchangedLine := rfl

theorem getDecorationInfo_addedLines (A B : Str) (mode : ChunkMode) :
    (getDecorationInfo A B mode).addedLines
      = (computeDiffOperations (splitLines A) (splitLines B) mode).filter
        isAddedLine := rfl

theorem getDecorationInfo_removedLines (A B : Str) (mode : ChunkMode) :
    (getDecorationInfo A B mode).removedLines
      = (computeDiffOperations (splitLines A) (splitLines B) mode).filter
        isRemovedLine := rfl

theorem getDecorationInfo_modifiedLines (A B : Str) (mode : ChunkMode) :
    (getDecorationInfo A B mode).modifiedLines
      = (computeDiffOperations (splitLines A) (splitLines B) mode).filter
        isModifiedLine := rfl

/-- **C1** (diff round-trip).  For all strings `A` and `B`, the
original-side projection of `getDecorationInfo(A, B)` — the texts of
`unchanged`, `removed` and `modified` (`oldText`) line entries taken in
original line order, joined with the newline detected in `A` — yields
exactly `A`, and the modified-side projection (`unchanged`, `added` and
`modified` (`newText`) entries in modified line order, joined with the
newline detected in `B`) yields exactly `B`. -/
theorem c1_diff_round_trip (A B : Str) (mode : ChunkMode) :
    originalSideText (getDecorationInfo A B mode) (getNewLineChar A) = A
    ∧ modifiedSideText (getDecorationInfo A B mode) (getNewLineChar B) = B := by
  obtain ⟨ho, hm⟩ := computeDiffOperations_entries (splitLines A)
    (splitLines B) mode
  constructor
  · rw [originalSideText, getDecorationInfo_unchangedLines,
      getDecorationInfo_removedLines, getDecorationInfo_modifiedLines]
    have hperm : (origEntries
        ((computeDiffOperations (splitLines A) (splitLines B) mode).filter
            isUnchangedLine
          ++ (computeDiffOperations (splitLines A) (splitLines B) mode).filter
            isRemovedLine
          ++ (computeDiffOperations (splitLines A) (splitLines B) mode).filter
            isModifiedLine)).Perm (enumF 0 (splitLines A)) := by
      have h1 := List.Perm.filterMap origEntry
        (buckets_perm_orig (computeDiffOperations (splitLines A)
          (splitLines B) mode))
      have h2 := origEntries_filter_not_added
        (computeDiffOperations (splitLines A) (splitLines B) mode)
      simp only [origEntries] at h1 h2 ho ⊢
      rw [h2, ho] at h1
      exact h1
    rw [sortByKey_fst_of_perm_enumF hperm, enumF_map_snd]
    exact joinSep_splitLines A
  · rw [modifiedSideText, getDecorationInfo_unchangedLines,
      getDecorationInfo_addedLines, getDecorationInfo_modifiedLines]
    have hperm : (modEntries
        ((computeDiffOperations (splitLines A) (splitLines B) mode).filter
            isUnchangedLine
          ++ (computeDiffOperations (splitLines A) (splitLines B) mode).filter
            isAddedLine
          ++ (computeDiffOperations (splitLines A) (splitLines B) mode).filter
            isModifiedLine)).Perm (enumF 0 (splitLines B)) := by
      have h1 := List.Perm.filterMap modEntry
        (buckets_perm_mod (computeDiffOperations (splitLines A)
          (splitLines B) mode))
      have h2 := modEntries_filter_not_removed
        (computeDiffOperations (splitLines A) (splitLines B) mode)
      simp only [modEntries] at h1 h2 hm ⊢
      rw [h2, hm] at h1
      exact h1
    rw [sortByKey_fst_of_perm_enumF hperm, enumF_map_snd]
    exact joinSep_splitLines B

/-- The unchanged-line run over identical line lists is exactly the
enumerated list with matching line numbers. -/
theorem unchangedRunEmit_self (lines : List Str) :
    ∀ (n oi : Nat), oi + n ≤ lines.length →
    unchangedRunEmit lines n oi oi
      = (enumF oi ((lines.drop oi).take n)).map
        (fun p => DecorationLineInfo.unchanged p.1 p.1 p.2) := by
  intro n
  induction n with
  | zero => intro oi h; simp [unchangedRunEmit, enumF]
  | succ n ih =>
    intro oi h
    have hoi : oi < lines.length := by omega
    rw [unchangedRunEmit, take_drop_getD_cons ([] : Str) hoi, enumF,
      List.map_cons, ih (oi + 1) (by omega)]

/-- **C9** (idempotence).  `getDecorationInfo(A, A)` has empty `added`,
`removed` and `modified` buckets, and its `unchangedLines` cover every
line of `A` in order with equal original and modified line numbers. -/
theorem c9_idempotence (A : Str) (mode : ChunkMode) :
    (getDecorationInfo A A mode).addedLines = []
    ∧ (getDecorationInfo A A mode).removedLines = []
    ∧ (getDecorationInfo A A mode).modifiedLines = []
    ∧ (getDecorationInfo A A mode).unchangedLines
      = (enumF 0 (splitLines A)).map
        (fun p => DecorationLineInfo.unchanged p.1 p.1 p.2) := by
  have hcdo : computeDiffOperations (splitLines A) (splitLines A) mode
      = (enumF 0 (splitLines A)).map
        (fun p => DecorationLineInfo.unchanged p.1 p.1 p.2) := by
    rw [computeDiffOperations, seqDiff_self, computeDiffOperationsGo]
    have h := unchangedRunEmit_self (splitLines A) (splitLines A).length 0
      (by omega)
    simpa using h
  have hall : ∀ x ∈ computeDiffOperations (splitLines A) (splitLines A) mode,
      isUnchangedLine x = true ∧ isAddedLine x = false
        ∧ isRemovedLine x = false ∧ isModifiedLine x = false := by
    rw [hcdo]
    intro x hx
    obtain ⟨p, hp, hpx⟩ := List.mem_map.mp hx
    subst hpx
    simp
  refine ⟨?_, ?_, ?_, ?_⟩
  · rw [getDecorationInfo_addedLines]
    exact List.filter_eq_nil_iff.mpr (fun x hx => by simp [(hall x hx).2.1])
  · rw [getDecorationInfo_removedLines]
    exact List.filter_eq_nil_iff.mpr (fun x hx => by simp [(hall x hx).2.2.1])
  · rw [getDecorationInfo_modifiedLines]
    exact List.filter_eq_nil_iff.mpr (fun x hx => by simp [(hall x hx).2.2.2])
  · rw [getDecorationInfo_unchangedLines]
    rw [List.filter_eq_self.mpr (fun x hx => (hall x hx).1), hcdo]

/-! ## `sortDiff` ordering (claim C4) -/

/-- The tie-breaking priority the claim asserts
(added → modified → unchanged → removed), stated from the spec's words
for comparison with the source's `typeOrder`. -/
def claimTypeOrder : DecorationLineInfo → Nat
  | .added _ _ => 0
  | .modified _ _ _ _ _ => 1
  | .unchanged _ _ _ => 2
  | .removed _ _ => 3

/-- The ordering the claim asserts for `sortDiff` output: line number
first, ties broken added → modified → unchanged → removed. -/
def claimSortKey (a : DecorationLineInfo) : Nat :=
  sortLineNumber a * 4 + claimTypeOrder a

/-- **C4 counterexample.**  For the `DecorationInfo` with one added line
at modified line 0 and one removed line at original line 0, `sortDiff`
puts the removed entry first, so its output is not ordered by the
claimed tie priority (which would put the added entry first). -/
theorem c4_counterexample :
    sortDiff ⟨[], [DecorationLineInfo.removed 0 (str "r")],
        [DecorationLineInfo.added 0 (str "a")], []⟩
      = [DecorationLineInfo.removed 0 (str "r"),
         DecorationLineInfo.added 0 (str "a")]
    ∧ ¬ (sortDiff ⟨[], [DecorationLineInfo.removed 0 (str "r")],
        [DecorationLineInfo.added 0 (str "a")], []⟩).Pairwise
        (fun a b => claimSortKey a ≤ claimSortKey b) := by
  constructor
  · rfl
  · intro h
    have := (List.pairwise_cons.mp h).1 (DecorationLineInfo.added 0 (str "a"))
      (by simp)
    simp [claimSortKey, claimTypeOrder, sortLineNumber] at this

/-- **C4 amended.**  `sortDiff` returns a permutation of the union of
the four buckets, ordered by line number (the original line number for
removed entries, the modified line number otherwise), with ties broken
by the priority removed → added → modified → unchanged (the order the
source's `typeOrder` table actually encodes). -/
theorem c4_sortDiff_order (d : DecorationInfo) :
    (sortDiff d).Perm
      (d.addedLines ++ d.modifiedLines ++ d.unchangedLines ++ d.removedLines)
    ∧ (sortDiff d).Pairwise (fun a b => sortDiffKey a ≤ sortDiffKey b) :=
  ⟨sortByKey_perm sortDiffKey _, sortByKey_sorted sortDiffKey _⟩

/-! ## Concatenation invariants of `computeLineChanges` (claim C2) -/

theorem wsCommonPrefixLen_le_left :
    ∀ (a b : Str), wsCommonPrefixLen a b ≤ a.length := by
  intro a
  induction a with
  | nil => intro b; cases b <;> simp [wsCommonPrefixLen]
  | cons c cs ih =>
    intro b
    cases b with
    | nil => simp [wsCommonPrefixLen]
    | cons d ds =>
      rw [wsCommonPrefixLen]
      split
      · have := ih ds
        simp only [List.length_cons]
        omega
      · simp

theorem wsCommonPrefixLen_le_right :
    ∀ (a b : Str), wsCommonPrefixLen a b ≤ b.length := by
  intro a
  induction a with
  | nil => intro b; cases b <;> simp [wsCommonPrefixLen]
  | cons c cs ih =>
    intro b
    cases b with
    | nil => simp [wsCommonPrefixLen]
    | cons d ds =>
      rw [wsCommonPrefixLen]
      split
      · have := ih ds
        simp only [List.length_cons]
        omega
      · simp

theorem wsCommonPrefixLen_take_eq :
    ∀ (a b : Str), a.take (wsCommonPrefixLen a b) = b.take (wsCommonPrefixLen a b) := by
  intro a
  induction a with
  | nil => intro b; cases b <;> simp [wsCommonPrefixLen]
  | cons c cs ih =>
    intro b
    cases b with
    | nil => simp [wsCommonPrefixLen]
    | cons d ds =>
      rw [wsCommonPrefixLen]
      split
      · rename_i hcd
        rw [List.take_succ_cons, List.take_succ_cons, ih ds, hcd.1]
      · simp

theorem wsCommonSuffixLen_le_left (d i : Str) (p : Nat) :
    wsCommonSuffixLen d i p ≤ d.length - p := by
  have h := wsCommonPrefixLen_le_left ((d.drop p).reverse) ((i.drop p).reverse)
  simpa [wsCommonSuffixLen, List.length_reverse, List.length_drop] using h

theorem wsCommonSuffixLen_le_right (d i : Str) (p : Nat) :
    wsCommonSuffixLen d i p ≤ i.length - p := by
  have h := wsCommonPrefixLen_le_right ((d.drop p).reverse) ((i.drop p).reverse)
  simpa [wsCommonSuffixLen, List.length_reverse, List.length_drop] using h

/-- The common whitespace suffix reads the same characters from both
strings: the tail of `deletionText` from `length - suffixLength` equals
the tail of `insertionText` from its `length - suffixLength`. -/
theorem wsCommonSuffixLen_drop_eq (d i : Str) (p : Nat) (hp1 : p ≤ d.length)
    (hp2 : p ≤ i.length) :
    d.drop (d.length - wsCommonSuffixLen d i p)
      = i.drop (i.length - wsCommonSuffixLen d i p) := by
  set s := wsCommonSuffixLen d i p with hs
  have hsl : s ≤ d.length - p := wsCommonSuffixLen_le_left d i p
  have hsr : s ≤ i.length - p := wsCommonSuffixLen_le_right d i p
  have htake := wsCommonPrefixLen_take_eq ((d.drop p).reverse) ((i.drop p).reverse)
  rw [← wsCommonSuffixLen, ← hs] at htake
  rw [List.take_reverse, List.take_reverse] at htake
  have hrev := congrArg List.reverse htake
  rw [List.reverse_reverse, List.reverse_reverse] at hrev
  rw [List.length_drop, List.length_drop, List.drop_drop, List.drop_drop]
    at hrev
  have e1 : p + (d.length - p - s) = d.length - s := by omega
  have e2 : p + (i.length - p - s) = i.length - s := by omega
  rw [e1, e2] at hrev
  exact hrev

/-- Decomposition of `deletionText` into its unchanged whitespace
prefix, deletion core and unchanged whitespace suffix. -/
theorem deletion_decomposition (d i : Str) :
    d.take (wsCommonPrefixLen d i)
      ++ (d.drop (wsCommonPrefixLen d i)).take
          (d.length - wsCommonSuffixLen d i (wsCommonPrefixLen d i)
            - wsCommonPrefixLen d i)
      ++ d.drop (d.length - wsCommonSuffixLen d i (wsCommonPrefixLen d i))
      = d := by
  set p := wsCommonPrefixLen d i with hp
  set s := wsCommonSuffixLen d i p with hs
  have hpl : p ≤ d.length := wsCommonPrefixLen_le_left d i
  have hsl : s ≤ d.length - p := wsCommonSuffixLen_le_left d i p
  have h1 : (d.drop p).take (d.length - s - p)
      ++ (d.drop p).drop (d.length - s - p) = d.drop p :=
    List.take_append_drop _ _
  have h2 : (d.drop p).drop (d.length - s - p) = d.drop (d.length - s) := by
    rw [List.drop_drop]
    have : p + (d.length - s - p) = d.length - s := by omega
    rw [this]
  rw [h2] at h1
  rw [List.append_assoc, h1, List.take_append_drop]

/-- Decomposition of `insertionText`: the prefix and suffix pushed by
the source are slices of `deletionText`, but they equal the matching
slices of `insertionText`. -/
theorem insertion_decomposition (d i : Str) :
    d.take (wsCommonPrefixLen d i)
      ++ (i.drop (wsCommonPrefixLen d i)).take
          (i.length - wsCommonSuffixLen d i (wsCommonPrefixLen d i)
            - wsCommonPrefixLen d i)
      ++ d.drop (d.length - wsCommonSuffixLen d i (wsCommonPrefixLen d i))
      = i := by
  set p := wsCommonPrefixLen d i with hp
  set s := wsCommonSuffixLen d i p with hs
  have hpl : p ≤ d.length := wsCommonPrefixLen_le_left d i
  have hpr : p ≤ i.length := wsCommonPrefixLen_le_right d i
  have hsr : s ≤ i.length - p := wsCommonSuffixLen_le_right d i p
  have htp : d.take p = i.take p := wsCommonPrefixLen_take_eq d i
  have hdrop : d.drop (d.length - s) = i.drop (i.length - s) :=
    wsCommonSuffixLen_drop_eq d i p hpl hpr
  rw [htp, hdrop]
  have h1 : (i.drop p).take (i.length - s - p)
      ++ (i.drop p).drop (i.length - s - p) = i.drop p :=
    List.take_append_drop _ _
  have h2 : (i.drop p).drop (i.length - s - p) = i.drop (i.length - s) := by
    rw [List.drop_drop]
    have : p + (i.length - s - p) = i.length - s := by omega
    rw [this]
  rw [h2] at h1
  rw [List.append_assoc, h1, List.take_append_drop]

/-- Whether a change contributes to the original-side (delete-side)
concatenation: `unchanged` and `delete` records. -/
def includeD (c : LineChange) : Bool := c.type != ChangeType.insert

/-- Whether a change contributes to the modified-side (insert-side)
concatenation: `unchanged` and `insert` records. -/
def includeI (c : LineChange) : Bool := c.type != ChangeType.delete

/-- Concatenated text of the `unchanged` and `delete` changes, in order. -/
def dSideText (changes : List LineChange) : Str :=
  ((changes.filter includeD).map LineChange.text).flatten

/-- Concatenated text of the `unchanged` and `insert` changes, in order. -/
def iSideText (changes : List LineChange) : Str :=
  ((changes.filter includeI).map LineChange.text).flatten

theorem dSideText_append (l₁ l₂ : List LineChange) :
    dSideText (l₁ ++ l₂) = dSideText l₁ ++ dSideText l₂ := by
  simp [dSideText, List.filter_append]

theorem iSideText_append (l₁ l₂ : List LineChange) :
    iSideText (l₁ ++ l₂) = iSideText l₁ ++ iSideText l₂ := by
  simp [iSideText, List.filter_append]

theorem dSideText_single (c : LineChange) :
    dSideText [c] = if includeD c then c.text else [] := by
  by_cases h : includeD c <;> simp [dSideText, List.filter_cons, h]

theorem iSideText_single (c : LineChange) :
    iSideText [c] = if includeI c then c.text else [] := by
  by_cases h : includeI c <;> simp [iSideText, List.filter_cons, h]

theorem pushUnchangedStep_spec (oLN mLN : Nat) (st : CLCState) (chunk : Str) :
    dSideText ((pushUnchangedStep oLN mLN st chunk).changesRev.reverse)
      = dSideText st.changesRev.reverse ++ chunk
    ∧ iSideText ((pushUnchangedStep oLN mLN st chunk).changesRev.reverse)
      = iSideText st.changesRev.reverse ++ chunk
    ∧ (pushUnchangedStep oLN mLN st chunk).oldIndex = st.oldIndex + 1
    ∧ (pushUnchangedStep oLN mLN st chunk).newIndex = st.newIndex + 1 := by
  rw [pushUnchangedStep]
  by_cases hc : chunk = []
  · subst hc
    simp
  · rw [if_neg hc]
    cases hrev : st.changesRev with
    | nil =>
      refine ⟨?_, ?_, rfl, rfl⟩ <;>
        simp [hrev, dSideText_append, iSideText_append, dSideText_single,
          iSideText_single, includeD, includeI, dSideText, iSideText]
    | cons prev rest =>
      dsimp only
      by_cases hty : prev.type = ChangeType.unchanged
      · rw [if_pos hty]
        refine ⟨?_, ?_, rfl, rfl⟩
        · simp only [List.reverse_cons, dSideText_append, hrev,
            dSideText_single, includeD]
          simp only [hty]
          simp [List.append_assoc]
        · simp only [List.reverse_cons, iSideText_append, hrev,
            iSideText_single, includeI]
          simp only [hty]
          simp [List.append_assoc]
      · rw [if_neg hty]
        refine ⟨?_, ?_, rfl, rfl⟩
        · simp only [hrev, List.reverse_cons, dSideText_append,
            dSideText_single, includeD]
          simp [List.append_assoc]
        · simp only [hrev, List.reverse_cons, iSideText_append,
            iSideText_single, includeI]
          simp [List.append_assoc]

theorem pushTrailingStep_spec (oLN mLN : Nat) (st : CLCState) (chunk : Str) :
    dSideText ((pushTrailingStep oLN mLN st chunk).changesRev.reverse)
      = dSideText st.changesRev.reverse ++ chunk
    ∧ iSideText ((pushTrailingStep oLN mLN st chunk).changesRev.reverse)
      = iSideText st.changesRev.reverse ++ chunk
    ∧ (pushTrailingStep oLN mLN st chunk).oldIndex = st.oldIndex + 1
    ∧ (pushTrailingStep oLN mLN st chunk).newIndex = st.newIndex + 1 := by
  rw [pushTrailingStep]
  by_cases hc : chunk = []
  · subst hc
    simp
  · rw [if_neg hc]
    refine ⟨?_, ?_, rfl, rfl⟩ <;>
      simp [List.reverse_cons, dSideText_append, iSideText_append,
        dSideText_single, iSideText_single, includeD, includeI]

theorem pushUnchangedGo_spec (oldChunks : List Str) (oLN mLN : Nat) :
    ∀ (n : Nat) (st : CLCState), st.oldIndex + n ≤ oldChunks.length →
    dSideText ((pushUnchangedGo oldChunks oLN mLN n st).changesRev.reverse)
      = dSideText st.changesRev.reverse
        ++ ((oldChunks.drop st.oldIndex).take n).flatten
    ∧ iSideText ((pushUnchangedGo oldChunks oLN mLN n st).changesRev.reverse)
      = iSideText st.changesRev.reverse
        ++ ((oldChunks.drop st.oldIndex).take n).flatten
    ∧ (pushUnchangedGo oldChunks oLN mLN n st).oldIndex = st.oldIndex + n
    ∧ (pushUnchangedGo oldChunks oLN mLN n st).newIndex = st.newIndex + n := by
  intro n
  induction n with
  | zero => intro st h; simp [pushUnchangedGo]
  | succ n ih =>
    intro st h
    have hoi : st.oldIndex < oldChunks.length := by omega
    rw [pushUnchangedGo]
    obtain ⟨sd, si, so, sn⟩ := pushUnchangedStep_spec oLN mLN st
      (oldChunks.getD st.oldIndex [])
    obtain ⟨gd, gi, go, gn⟩ := ih
      (pushUnchangedStep oLN mLN st (oldChunks.getD st.oldIndex []))
      (by rw [so]; omega)
    rw [take_drop_getD_cons ([] : Str) hoi, List.flatten_cons]
    refine ⟨?_, ?_, ?_, ?_⟩
    · rw [gd, sd, so, List.append_assoc]
    · rw [gi, si, so, List.append_assoc]
    · rw [go, so]; omega
    · rw [gn, sn]; omega

theorem pushTrailingGo_spec (oldChunks : List Str) (oLN mLN : Nat) :
    ∀ (n : Nat) (st : CLCState), st.oldIndex + n ≤ oldChunks.length →
    dSideText ((pushTrailingGo oldChunks oLN mLN n st).changesRev.reverse)
      = dSideText st.changesRev.reverse
        ++ ((oldChunks.drop st.oldIndex).take n).flatten
    ∧ iSideText ((pushTrailingGo oldChunks oLN mLN n st).changesRev.reverse)
      = iSideText st.changesRev.reverse
        ++ ((oldChunks.drop st.oldIndex).take n).flatten := by
  intro n
  induction n with
  | zero => intro st h; simp [pushTrailingGo]
  | succ n ih =>
    intro st h
    have hoi : st.oldIndex < oldChunks.length := by omega
    rw [pushTrailingGo]
    obtain ⟨sd, si, so, sn⟩ := pushTrailingStep_spec oLN mLN st
      (oldChunks.getD st.oldIndex [])
    obtain ⟨gd, gi⟩ := ih
      (pushTrailingStep oLN mLN st (oldChunks.getD st.oldIndex []))
      (by rw [so]; omega)
    rw [take_drop_getD_cons ([] : Str) hoi, List.flatten_cons]
    constructor
    · rw [gd, sd, so, List.append_assoc]
    · rw [gi, si, so, List.append_assoc]

theorem dSideText_reverse_cons (c : LineChange) (rev : List LineChange) :
    dSideText ((c :: rev).reverse)
      = dSideText rev.reverse ++ (if includeD c then c.text else []) := by
  rw [List.reverse_cons, dSideText_append, dSideText_single]

theorem iSideText_reverse_cons (c : LineChange) (rev : List LineChange) :
    iSideText ((c :: rev).reverse)
      = iSideText rev.reverse ++ (if includeI c then c.text else []) := by
  rw [List.reverse_cons, iSideText_append, iSideText_single]

theorem corePrefixStep_spec (oLN mLN : Nat) (d : Str) (p : Nat)
    (st : CLCState) :
    dSideText ((corePrefixStep oLN mLN d p st).changesRev.reverse)
      = dSideText st.changesRev.reverse ++ d.take p
    ∧ iSideText ((corePrefixStep oLN mLN d p st).changesRev.reverse)
      = iSideText st.changesRev.reverse ++ d.take p
    ∧ (corePrefixStep oLN mLN d p st).oldIndex = st.oldIndex
    ∧ (corePrefixStep oLN mLN d p st).newIndex = st.newIndex := by
  rw [corePrefixStep]
  by_cases h : 0 < p
  · rw [if_pos h]
    refine ⟨?_, ?_, rfl, rfl⟩ <;>
      simp [dSideText_append, iSideText_append, dSideText_single,
        iSideText_single, includeD, includeI]
  · rw [if_neg h]
    have hp : p = 0 := by omega
    simp [hp]

theorem coreDeletionStep_spec (oLN mLN : Nat) (core : Str) (st : CLCState) :
    dSideText ((coreDeletionStep oLN mLN core st).changesRev.reverse)
      = dSideText st.changesRev.reverse ++ core
    ∧ iSideText ((coreDeletionStep oLN mLN core st).changesRev.reverse)
      = iSideText st.changesRev.reverse
    ∧ (coreDeletionStep oLN mLN core st).oldIndex = st.oldIndex
    ∧ (coreDeletionStep oLN mLN core st).newIndex = st.newIndex := by
  rw [coreDeletionStep]
  by_cases h : core ≠ []
  · rw [if_pos h]
    refine ⟨?_, ?_, rfl, rfl⟩ <;>
      simp [dSideText_append, iSideText_append, dSideText_single,
        iSideText_single, includeD, includeI]
  · rw [if_neg h]
    push_neg at h
    simp [h]

theorem coreInsertionStep_spec (oLN mLN : Nat) (core : Str) (st : CLCState) :
    dSideText ((coreInsertionStep oLN mLN core st).changesRev.reverse)
      = dSideText st.changesRev.reverse
    ∧ iSideText ((coreInsertionStep oLN mLN core st).changesRev.reverse)
      = iSideText st.changesRev.reverse ++ core
    ∧ (coreInsertionStep oLN mLN core st).oldIndex = st.oldIndex
    ∧ (coreInsertionStep oLN mLN core st).newIndex = st.newIndex := by
  rw [coreInsertionStep]
  by_cases h : core ≠ []
  · rw [if_pos h]
    refine ⟨?_, ?_, rfl, rfl⟩ <;>
      simp [dSideText_append, iSideText_append, dSideText_single,
        iSideText_single, includeD, includeI]
  · rw [if_neg h]
    push_neg at h
    simp [h]

theorem coreSuffixStep_spec (oLN mLN : Nat) (suffixText : Str) (sl : Nat)
    (st : CLCState) (hzero : sl = 0 → suffixText = []) :
    dSideText ((coreSuffixStep oLN mLN suffixText sl st).changesRev.reverse)
      = dSideText st.changesRev.reverse ++ suffixText
    ∧ iSideText ((coreSuffixStep oLN mLN suffixText sl st).changesRev.reverse)
      = iSideText st.changesRev.reverse ++ suffixText
    ∧ (coreSuffixStep oLN mLN suffixText sl st).oldIndex = st.oldIndex
    ∧ (coreSuffixStep oLN mLN suffixText sl st).newIndex = st.newIndex := by
  rw [coreSuffixStep]
  by_cases h : 0 < sl
  · rw [if_pos h]
    refine ⟨?_, ?_, rfl, rfl⟩ <;>
      simp [dSideText_append, iSideText_append, dSideText_single,
        iSideText_single, includeD, includeI]
  · rw [if_neg h]
    have hs : suffixText = [] := hzero (by omega)
    simp [hs]

theorem processChunkHunkCore_spec (oLN mLN : Nat) (d i : Str) (st : CLCState) :
    dSideText ((processChunkHunkCore oLN mLN d i st).changesRev.reverse)
      = dSideText st.changesRev.reverse ++ d
    ∧ iSideText ((processChunkHunkCore oLN mLN d i st).changesRev.reverse)
      = iSideText st.changesRev.reverse ++ i
    ∧ (processChunkHunkCore oLN mLN d i st).oldIndex = st.oldIndex
    ∧ (processChunkHunkCore oLN mLN d i st).newIndex = st.newIndex := by
  rw [processChunkHunkCore]
  by_cases h0 : d = [] ∧ i = []
  · rw [if_pos h0]
    simp [h0.1, h0.2]
  · rw [if_neg h0]
    dsimp only
    obtain ⟨d1, i1, o1, n1⟩ := corePrefixStep_spec oLN mLN d
      (wsCommonPrefixLen d i) st
    obtain ⟨d2, i2, o2, n2⟩ := coreDeletionStep_spec oLN mLN
      ((d.drop (wsCommonPrefixLen d i)).take
        (d.length - wsCommonSuffixLen d i (wsCommonPrefixLen d i)
          - wsCommonPrefixLen d i))
      (corePrefixStep oLN mLN d (wsCommonPrefixLen d i) st)
    obtain ⟨d3, i3, o3, n3⟩ := coreInsertionStep_spec oLN mLN
      ((i.drop (wsCommonPrefixLen d i)).take
        (i.length - wsCommonSuffixLen d i (wsCommonPrefixLen d i)
          - wsCommonPrefixLen d i))
      (coreDeletionStep oLN mLN
        ((d.drop (wsCommonPrefixLen d i)).take
          (d.length - wsCommonSuffixLen d i (wsCommonPrefixLen d i)
            - wsCommonPrefixLen d i))
        (corePrefixStep oLN mLN d (wsCommonPrefixLen d i) st))
    obtain ⟨d4, i4, o4, n4⟩ := coreSuffixStep_spec oLN mLN
      (d.drop (d.length - wsCommonSuffixLen d i (wsCommonPrefixLen d i)))
      (wsCommonSuffixLen d i (wsCommonPrefixLen d i))
      (coreInsertionStep oLN mLN
        ((i.drop (wsCommonPrefixLen d i)).take
          (i.length - wsCommonSuffixLen d i (wsCommonPrefixLen d i)
            - wsCommonPrefixLen d i))
        (coreDeletionStep oLN mLN
          ((d.drop (wsCommonPrefixLen d i)).take
            (d.length - wsCommonSuffixLen d i (wsCommonPrefixLen d i)
              - wsCommonPrefixLen d i))
          (corePrefixStep oLN mLN d (wsCommonPrefixLen d i) st)))
      (fun hs => by rw [hs, Nat.sub_zero, List.drop_length])
    refine ⟨?_, ?_, ?_, ?_⟩
    · rw [d4, d3, d2, d1]
      rw [List.append_assoc, List.append_assoc]
      rw [← List.append_assoc (d.take (wsCommonPrefixLen d i))]
      rw [deletion_decomposition d i]
    · rw [i4, i3, i2, i1]
      rw [List.append_assoc, List.append_assoc]
      rw [← List.append_assoc (d.take (wsCommonPrefixLen d i))]
      rw [insertion_decomposition d i]
    · rw [o4, o3, o2, o1]
    · rw [n4, n3, n2, n1]

theorem clc_walk_spec (oldChunks newChunks : List Str) (oLN mLN : Nat) :
    ∀ (hunks : List Hunk) (st : CLCState),
    HunksValid oldChunks newChunks st.oldIndex st.newIndex hunks →
    st.oldIndex ≤ oldChunks.length → st.newIndex ≤ newChunks.length →
    dSideText ((pushTrailingGo oldChunks oLN mLN
        (min (oldChunks.length
            - (clcGo oldChunks newChunks oLN mLN hunks st).oldIndex)
          (newChunks.length
            - (clcGo oldChunks newChunks oLN mLN hunks st).newIndex))
        (clcGo oldChunks newChunks oLN mLN hunks st)).changesRev.reverse)
      = dSideText st.changesRev.reverse
        ++ (oldChunks.drop st.oldIndex).flatten
    ∧ iSideText ((pushTrailingGo oldChunks oLN mLN
        (min (oldChunks.length
            - (clcGo oldChunks newChunks oLN mLN hunks st).oldIndex)
          (newChunks.length
            - (clcGo oldChunks newChunks oLN mLN hunks st).newIndex))
        (clcGo oldChunks newChunks oLN mLN hunks st)).changesRev.reverse)
      = iSideText st.changesRev.reverse
        ++ (newChunks.drop st.newIndex).flatten := by
  intro hunks
  induction hunks with
  | nil =>
    intro st hv hoi hmi
    cases hv with
    | nil _ _ heq =>
      rw [clcGo]
      have hlen : oldChunks.length - st.oldIndex
          = newChunks.length - st.newIndex := by
        have := congrArg List.length heq
        simp only [List.length_drop] at this
        omega
      have hmin : min (oldChunks.length - st.oldIndex)
          (newChunks.length - st.newIndex)
          = oldChunks.length - st.oldIndex := by omega
      rw [hmin]
      obtain ⟨hd, hi⟩ := pushTrailingGo_spec oldChunks oLN mLN
        (oldChunks.length - st.oldIndex) st (by omega)
      have htake : (oldChunks.drop st.oldIndex).take
          (oldChunks.length - st.oldIndex) = oldChunks.drop st.oldIndex := by
        apply List.take_of_length_le
        rw [List.length_drop]
      rw [htake] at hd hi
      exact ⟨hd, by rw [hi, heq]⟩
  | cons h t ih =>
    intro st hv hoi hmi
    cases hv with
    | cons _ _ _ _ h1 h2 h3 h4 h5 h6 h7 h8 htail =>
      rw [clcGo, clcHunkStep]
      have hgmin : min (h.oStart - st.oldIndex) (h.mStart - st.newIndex)
          = h.oStart - st.oldIndex := by omega
      rw [pushUnchangedUntil, hgmin]
      obtain ⟨gd, gi, go, gn⟩ := pushUnchangedGo_spec oldChunks oLN mLN
        (h.oStart - st.oldIndex) st (by omega)
      set stA := pushUnchangedGo oldChunks oLN mLN
        (h.oStart - st.oldIndex) st with hstA
      set stB : CLCState := { stA with oldIndex := h.oEnd, newIndex := h.mEnd }
        with hstB
      obtain ⟨cd, ci, co, cn⟩ := processChunkHunkCore_spec oLN mLN
        (((oldChunks.drop h.oStart).take (h.oEnd - h.oStart)).flatten)
        (((newChunks.drop h.mStart).take (h.mEnd - h.mStart)).flatten) stB
      set stC := processChunkHunkCore oLN mLN
        (((oldChunks.drop h.oStart).take (h.oEnd - h.oStart)).flatten)
        (((newChunks.drop h.mStart).take (h.mEnd - h.mStart)).flatten) stB
        with hstC
      have hCo : stC.oldIndex = h.oEnd := by rw [co]
      have hCn : stC.newIndex = h.mEnd := by rw [cn]
      have hvC : HunksValid oldChunks newChunks stC.oldIndex stC.newIndex t := by
        rw [hCo, hCn]; exact htail
      obtain ⟨wd, wi⟩ := ih stC hvC (by rw [hCo]; exact h6) (by rw [hCn]; exact h8)
      have hBrev : stB.changesRev = stA.changesRev := rfl
      constructor
      · rw [wd, cd, hBrev, gd]
        have hdec1 : oldChunks.drop st.oldIndex
            = (oldChunks.drop st.oldIndex).take (h.oStart - st.oldIndex)
              ++ oldChunks.drop h.oStart :=
          drop_decompose oldChunks st.oldIndex h.oStart h1 (by omega)
        have hdec2 : oldChunks.drop h.oStart
            = (oldChunks.drop h.oStart).take (h.oEnd - h.oStart)
              ++ oldChunks.drop h.oEnd :=
          drop_decompose oldChunks h.oStart h.oEnd h5 h6
        rw [hCo]
        conv_rhs => rw [hdec1, hdec2]
        simp [List.flatten_append, List.append_assoc]
      · rw [wi, ci, hBrev, gi]
        have hgap : (oldChunks.drop st.oldIndex).take (h.oStart - st.oldIndex)
            = (newChunks.drop st.newIndex).take (h.mStart - st.newIndex) := h4
        have hdec1 : newChunks.drop st.newIndex
            = (newChunks.drop st.newIndex).take (h.mStart - st.newIndex)
              ++ newChunks.drop h.mStart :=
          drop_decompose newChunks st.newIndex h.mStart h2 (by omega)
        have hdec2 : newChunks.drop h.mStart
            = (newChunks.drop h.mStart).take (h.mEnd - h.mStart)
              ++ newChunks.drop h.mEnd :=
          drop_decompose newChunks h.mStart h.mEnd h7 h8
        rw [hCn, hgap]
        conv_rhs => rw [hdec1, hdec2]
        simp [List.flatten_append, List.append_assoc]

/-- **The concatenation invariant of `computeLineChanges`**: the
`unchanged`+`delete` changes concatenate to the old chunks and the
`unchanged`+`insert` changes concatenate to the new chunks. -/
theorem computeLineChanges_sides (oldChunks newChunks : List Str)
    (oLN mLN : Nat) :
    dSideText (computeLineChanges oldChunks newChunks oLN mLN)
      = oldChunks.flatten
    ∧ iSideText (computeLineChanges oldChunks newChunks oLN mLN)
      = newChunks.flatten := by
  have h := clc_walk_spec oldChunks newChunks oLN mLN
    (seqDiff oldChunks newChunks) ⟨[], 0, 0, 0, 0⟩
    (seqDiff_valid oldChunks newChunks) (Nat.zero_le _) (Nat.zero_le _)
  simpa [computeLineChanges, dSideText, iSideText] using h

/-- The intra-line change list of a `modified` entry. -/
def changesOf : DecorationLineInfo → List LineChange
  | .modified _ _ _ _ ch => ch
  | _ => []

/-- The original-side text of a line entry (`oldText` for modified). -/
def oldTextOf : DecorationLineInfo → Str
  | .modified _ _ ot _ _ => ot
  | .unchanged _ _ t => t
  | .added _ t => t
  | .removed _ t => t

/-- The modified-side text of a line entry (`newText` for modified). -/
def newTextOf : DecorationLineInfo → Str
  | .modified _ _ _ nt _ => nt
  | .unchanged _ _ t => t
  | .added _ t => t
  | .removed _ t => t

/-- Chunking loses no characters as long as the line contains none of
the four characters the `.` regex skips. -/
theorem splitLineIntoChunks_flatten (mode : ChunkMode) (l : Str)
    (h : ∀ c ∈ l, isLineTerminator c = false) :
    (splitLineIntoChunks mode l).flatten = l := by
  cases mode with
  | character => exact charChunks_flatten l h
  | wordsAndPunctuation => exact wordChunks_flatten l

theorem changesOf_createModifiedLineInfo (mode : ChunkMode) (oLN mLN : Nat)
    (ot nt : Str) :
    changesOf (createModifiedLineInfo mode oLN mLN ot nt)
      = (if isSimpleLineDiff (getModifiedLineChanges ChunkMode.character
            oLN mLN ot nt)
         then getModifiedLineChanges ChunkMode.character oLN mLN ot nt
         else getModifiedLineChanges mode oLN mLN ot nt) := rfl

/-- Both sides of a freshly created modified line reconstruct the line
texts, provided the texts contain no regex-skipped characters. -/
theorem createModifiedLineInfo_sides (mode : ChunkMode) (oLN mLN : Nat)
    (ot nt : Str)
    (ho : ∀ c ∈ ot, isLineTerminator c = false)
    (hn : ∀ c ∈ nt, isLineTerminator c = false) :
    dSideText (changesOf (createModifiedLineInfo mode oLN mLN ot nt)) = ot
    ∧ iSideText (changesOf (createModifiedLineInfo mode oLN mLN ot nt)) = nt := by
  rw [changesOf_createModifiedLineInfo]
  by_cases hs : isSimpleLineDiff (getModifiedLineChanges ChunkMode.character
      oLN mLN ot nt)
  · rw [if_pos hs]
    obtain ⟨hd, hi⟩ := computeLineChanges_sides
      (splitLineIntoChunks ChunkMode.character ot)
      (splitLineIntoChunks ChunkMode.character nt) oLN mLN
    rw [getModifiedLineChanges]
    rw [hd, hi, splitLineIntoChunks_flatten _ _ ho,
      splitLineIntoChunks_flatten _ _ hn]
    exact ⟨rfl, rfl⟩
  · rw [if_neg hs]
    obtain ⟨hd, hi⟩ := computeLineChanges_sides
      (splitLineIntoChunks mode ot) (splitLineIntoChunks mode nt) oLN mLN
    rw [getModifiedLineChanges]
    rw [hd, hi, splitLineIntoChunks_flatten _ _ ho,
      splitLineIntoChunks_flatten _ _ hn]
    exact ⟨rfl, rfl⟩

theorem mem_unchangedRunEmit_not_modified (modifLines : List Str) :
    ∀ (n oi mi : Nat) (e : DecorationLineInfo),
    e ∈ unchangedRunEmit modifLines n oi mi → isModifiedLine e = false := by
  intro n
  induction n with
  | zero => intro oi mi e he; simp [unchangedRunEmit] at he
  | succ n ih =>
    intro oi mi e he
    rw [unchangedRunEmit] at he
    rcases List.mem_cons.mp he with h | h
    · subst h; rfl
    · exact ih _ _ _ h

theorem mem_removedEmit_not_modified (origLines : List Str) :
    ∀ (n oi : Nat) (e : DecorationLineInfo),
    e ∈ removedEmit origLines n oi → isModifiedLine e = false := by
  intro n
  induction n with
  | zero => intro oi e he; simp [removedEmit] at he
  | succ n ih =>
    intro oi e he
    rw [removedEmit] at he
    rcases List.mem_cons.mp he with h | h
    · subst h; rfl
    · exact ih _ _ h

theorem mem_addedEmit_not_modified (modifLines : List Str) :
    ∀ (n mi : Nat) (e : DecorationLineInfo),
    e ∈ addedEmit modifLines n mi → isModifiedLine e = false := by
  intro n
  induction n with
  | zero => intro mi e he; simp [addedEmit] at he
  | succ n ih =>
    intro mi e he
    rw [addedEmit] at he
    rcases List.mem_cons.mp he with h | h
    · subst h; rfl
    · exact ih _ _ h

theorem mem_pairsEmit_modified (origLines modifLines : List Str)
    (mode : ChunkMode) :
    ∀ (n oi mi : Nat) (e : DecorationLineInfo),
    e ∈ pairsEmit origLines modifLines mode n oi mi →
    isModifiedLine e = true →
    ∃ o m ot nt, e = createModifiedLineInfo mode o m ot nt := by
  intro n
  induction n with
  | zero => intro oi mi e he _; simp [pairsEmit] at he
  | succ n ih =>
    intro oi mi e he hm
    rw [pairsEmit] at he
    rcases List.mem_cons.mp he with h | h
    · by_cases hne : origLines.getD oi ([] : Str) = modifLines.getD mi []
      · rw [if_neg (by simpa using hne)] at h
        subst h
        exact absurd hm (by simp [isModifiedLine])
      · rw [if_pos (by simpa using hne)] at h
        exact ⟨oi, mi, _, _, h⟩
    · exact ih _ _ _ h hm

theorem mem_cdoGo_modified (origLines modifLines : List Str)
    (mode : ChunkMode) :
    ∀ (hunks : List Hunk) (oi mi : Nat) (e : DecorationLineInfo),
    e ∈ computeDiffOperationsGo origLines modifLines mode hunks oi mi →
    isModifiedLine e = true →
    ∃ o m ot nt, e = createModifiedLineInfo mode o m ot nt := by
  intro hunks
  induction hunks with
  | nil =>
    intro oi mi e he hm
    rw [computeDiffOperationsGo] at he
    exact absurd hm (by simp [mem_unchangedRunEmit_not_modified _ _ _ _ _ he])
  | cons h t ih =>
    intro oi mi e he hm
    rw [computeDiffOperationsGo] at he
    rcases List.mem_append.mp he with h1 | h1
    · rcases List.mem_append.mp h1 with h2 | h2
      · exact absurd hm
          (by simp [mem_unchangedRunEmit_not_modified _ _ _ _ _ h2])
      · rw [processHunkLines] at h2
        rcases List.mem_append.mp h2 with h3 | h3
        · rcases List.mem_append.mp h3 with h4 | h4
          · exact mem_pairsEmit_modified _ _ _ _ _ _ _ h4 hm
          · exact absurd hm
              (by simp [mem_removedEmit_not_modified _ _ _ _ h4])
        · exact absurd hm (by simp [mem_addedEmit_not_modified _ _ _ _ h3])
    · exact ih _ _ _ h1 hm

/-- Every entry of the `modifiedLines` bucket of `getDecorationInfo` is
an output of `createModifiedLineInfo`. -/
theorem mem_modifiedLines_createModifiedLineInfo (A B : Str)
    (mode : ChunkMode) (e : DecorationLineInfo)
    (he : e ∈ (getDecorationInfo A B mode).modifiedLines) :
    ∃ o m ot nt, e = createModifiedLineInfo mode o m ot nt := by
  rw [getDecorationInfo_modifiedLines] at he
  have hmem := List.mem_of_mem_filter he
  have hmod := List.of_mem_filter he
  exact mem_cdoGo_modified _ _ _ _ _ _ _ hmem hmod

/-- **C2 counterexample.**  For original text `"a\rb"` and modified text
`"a\rc"` the single modified line's `unchanged`+`delete` concatenation is
`"ab"`, not the original line text `"a\rb"`: the character-granularity
regex `/./g` silently drops the carriage return. -/
theorem c2_counterexample :
    (getDecorationInfo (str "a\rb") (str "a\rc")
        ChunkMode.wordsAndPunctuation).modifiedLines.map
        (fun e => (oldTextOf e, dSideText (changesOf e)))
      = [(str "a\rb", str "ab")]
    ∧ str "ab" ≠ str "a\rb" := by
  constructor
  · decide
  · decide

/-- **C2 amended.**  For every modified line entry produced by the diff
engine whose line texts contain none of the four characters the JS regex
`.` skips (`\n`, `\r`, U+2028, U+2029), concatenating the text of its
`unchanged` and `insert` `LineChange` records in sequence order equals
the modified line text exactly, and concatenating the `unchanged` and
`delete` records equals the original line text exactly. -/
theorem c2_line_change_concat (A B : Str) (mode : ChunkMode)
    (e : DecorationLineInfo)
    (he : e ∈ (getDecorationInfo A B mode).modifiedLines)
    (ho : ∀ c ∈ oldTextOf e, isLineTerminator c = false)
    (hn : ∀ c ∈ newTextOf e, isLineTerminator c = false) :
    dSideText (changesOf e) = oldTextOf e
    ∧ iSideText (changesOf e) = newTextOf e := by
  obtain ⟨o, m, ot, nt, rfl⟩ :=
    mem_modifiedLines_createModifiedLineInfo A B mode e he
  exact createModifiedLineInfo_sides mode o m ot nt ho hn

/-- Witness for the amended C2 at a concrete input. -/
theorem c2_line_change_concat_witness :
    dSideText (changesOf (createModifiedLineInfo ChunkMode.wordsAndPunctuation
        0 0 (str "ab") (str "ac")))
      = oldTextOf (createModifiedLineInfo ChunkMode.wordsAndPunctuation
        0 0 (str "ab") (str "ac"))
    ∧ iSideText (changesOf (createModifiedLineInfo ChunkMode.wordsAndPunctuation
        0 0 (str "ab") (str "ac")))
      = newTextOf (createModifiedLineInfo ChunkMode.wordsAndPunctuation
        0 0 (str "ab") (str "ac")) :=
  c2_line_change_concat (str "ab") (str "ac") ChunkMode.wordsAndPunctuation
    (createModifiedLineInfo ChunkMode.wordsAndPunctuation 0 0
      (str "ab") (str "ac"))
    (by decide) (by decide) (by decide)

/-- **C7** (granularity fallback).  `createModifiedLineInfo` first
computes the intra-line change list at character granularity, and uses
the configured (word) granularity instead exactly when the
character-level list fails `isSimpleLineDiff`; in particular, for
original line `"abcabc"` and modified line `"xbcxbc"` the character-level
change list is not simple and is not used — the word-level list, which
differs from it, is. -/
theorem c7_granularity_fallback :
    (∀ (mode : ChunkMode) (oLN mLN : Nat) (ot nt : Str),
      changesOf (createModifiedLineInfo mode oLN mLN ot nt)
        = (if isSimpleLineDiff (getModifiedLineChanges ChunkMode.character
              oLN mLN ot nt)
           then getModifiedLineChanges ChunkMode.character oLN mLN ot nt
           else getModifiedLineChanges mode oLN mLN ot nt))
    ∧ isSimpleLineDiff (getModifiedLineChanges ChunkMode.character 0 0
        (str "abcabc") (str "xbcxbc")) = false
    ∧ changesOf (createModifiedLineInfo ChunkMode.wordsAndPunctuation 0 0
        (str "abcabc") (str "xbcxbc"))
      = getModifiedLineChanges ChunkMode.wordsAndPunctuation 0 0
        (str "abcabc") (str "xbcxbc")
    ∧ getModifiedLineChanges ChunkMode.wordsAndPunctuation 0 0
        (str "abcabc") (str "xbcxbc")
      ≠ getModifiedLineChanges ChunkMode.character 0 0
        (str "abcabc") (str "xbcxbc") := by
  refine ⟨fun mode oLN mLN ot nt => changesOf_createModifiedLineInfo _ _ _ _ _,
    ?_, ?_, ?_⟩
  · decide
  · decide
  · decide

/-! ## The Deep Cody reviewer loop
(`src/vscode/src/chat/chat-view/handlers/registry.ts`)

External collaborators are modelled as parameters of an `AgentEnv`: the
tools (`CodyToolProvider.getAllTools()`), the chat stream
(`chatClient.chat` as a list of events per iteration), the dehydrated
chat-history context files, and the file-resolution collaborator
(`getContextFromRelativePath`).  The abort signal is a constant flag
(none of the verified claims exercises a mid-stream abort).
-/

/-- The `source` provenance tag of a context item. -/
inductive CSource
  | user
  | agentic
  | editor
  | search
  | other
deriving DecidableEq, Repr

/-- A context item, restricted to the fields the reviewer loop reads:
`uri.path`, `uri.scheme`, `source`, `title`, `type === 'media'`, and an
opaque content used only for identity. -/
structure ContextItem where
  path : Str
  scheme : Str
  source : Option CSource
  title : Option Str
  isMedia : Bool
  content : Str
deriving DecidableEq, Repr

/-- Modelled from the spec: `isUserAddedItem` (from the absent
`prompt-builder/utils` module) recognises «items tagged `source = user`»
(spec §3). -/
def isUserAddedItem (c : ContextItem) : Bool := c.source = some CSource.user

/-- A tool as the reviewer sees it: its multiplexer tag, the
`config.metadata.isMcpTool` flag, and its `run` outcome per review
iteration (an exception is an `Except.error`). -/
structure CodyTool where
  tag : Str
  isMcpTool : Bool
  run : Nat → Except Str (List ContextItem)

/-- One event of the chat completion stream (`change` carries the full
accumulated text so far). -/
inductive StreamEvent
  | change (text : Str)
  | complete
  | error (e : Str)

/-- Modelled from the spec: the `BotResponseMultiplexer` (from the
absent `lib/shared` module) keeps a registry of subscribed tags; its
`notifyTurnComplete` invokes every subscriber's `onTurnComplete` once
per call.  The model counts those invocations per tag. -/
structure Multiplexer where
  tags : List Str
  turnCompleteCount : Str → Nat

/-- `notifyTurnComplete`: fire `onTurnComplete` once for every
subscribed tag. -/
def notifyTurnComplete (m : Multiplexer) : Multiplexer :=
  { m with
    turnCompleteCount := fun t =>
      if t ∈ m.tags then m.turnCompleteCount t + 1
      else m.turnCompleteCount t }

/-- `initializeMultiplexer`: subscribe every tool's tag. -/
def initializeMultiplexer (tools : List CodyTool) : Multiplexer :=
  { tags := tools.map (fun t => t.tag)
    turnCompleteCount := fun _ => 0 }

/-- The deterministic environment of one agent run. -/
structure AgentEnv where
  tools : List CodyTool
  responses : Nat → List StreamEvent
  dehydrated : List ContextItem
  resolve : Str → Option ContextItem
  aborted : Bool

/-- The event loop of `processStream`: accumulate text deltas
(`msg.text.slice(accumulated.length)`), stop on `complete`, raise on
`error`; an aborted parent signal stops reading further deltas. -/
def processStreamEvents (aborted : Bool) : List StreamEvent → Str → Except Str Str
  | [], acc => .ok acc
  | e :: rest, acc =>
    if aborted then .ok acc
    else
      match e with
      | .change t => processStreamEvents aborted rest (acc ++ t.drop acc.length)
      | .complete => .ok acc
      | .error err => .error err

/-- Modelled from the spec: the `ACTIONS_TAGS.CONTEXT` tag used for
`<context>…</context>` extraction (spec §4.2). -/
def contextTag : Str := str "context"

/-- Modelled from the spec: the designated "ready to answer" sentinel
tag (`ACTIONS_TAGS.ANSWER`, from the absent `prompts` module). -/
def answerTag : Str := str "answer"

/-- `isReadyToAnswer`: the response is exactly the opening answer tag. -/
def isReadyToAnswer (t : Str) : Bool := t = '<' :: answerTag ++ ['>']

/-- `<tag>` as a character list. -/
def openTagOf (tag : Str) : Str := '<' :: tag ++ ['>']

/-- `</tag>` as a character list. -/
def closeTagOf (tag : Str) : Str := '<' :: '/' :: tag ++ ['>']

/-- Lazy search for the closing tag from a fixed start position: the
shortest prefix without line terminators followed by the closing tag
(the regex `(.*?)` cannot cross a line terminator). -/
def findClose (closeTag : Str) : Str → Option (Str × Str)
  | [] => none
  | c :: rest =>
    if closeTag.isPrefixOf (c :: rest) then
      some ([], (c :: rest).drop closeTag.length)
    else if isLineTerminator c then none
    else
      match findClose closeTag rest with
      | some (content, r) => some (c :: content, r)
      | none => none

/-- Fuelled scanner for `RawTextProcessor.extract`'s global regex
`/<tag>(.*?)<\/tag>/g`. -/
def extractTagsF (openTag closeTag : Str) : Nat → Str → List Str
  | _, [] => []
  | 0, _ => []
  | fuel + 1, c :: rest =>
    if openTag.isPrefixOf (c :: rest) then
      match findClose closeTag ((c :: rest).drop openTag.length) with
      | some (content, r) => content :: extractTagsF openTag closeTag fuel r
      | none => extractTagsF openTag closeTag fuel rest
    else extractTagsF openTag closeTag fuel rest

/-- `RawTextProcessor.extract(response, tag)`. -/
def extractTags (tag response : Str) : List Str :=
  extractTagsF (openTagOf tag) (closeTagOf tag) response.length response

/-- JS `String.prototype.endsWith` on the path model. -/
def endsWithStr (l suffix : Str) : Bool := suffix.isSuffixOf l

/-- The body of the reflection double loop for one context name and one
held item: on a path-suffix match, re-resolve `file`-scheme items
through the collaborator (falling back to the held item) and retag the
provenance as agentic. -/
def reflectItem (env : AgentEnv) (name : Str) (item : ContextItem) :
    Option ContextItem :=
  if endsWithStr item.path name then
    let file := if item.scheme = str "file" then env.resolve name else some item
    some { file.getD item with source := some CSource.agentic }
  else none

/-- `DeepCodyAgent.reflect`: when any extracted name matches, the whole
working context is replaced by the reviewed set plus all user-added (or
media) items of the previous context. -/
def reflect (env : AgentEnv) (contextNames : List Str)
    (ctx : List ContextItem) : List ContextItem :=
  if contextNames = [] ∨ ctx = [] then ctx
  else
    let currentContext := ctx ++ env.dehydrated
    let reviewed := (contextNames.map
      (fun name => currentContext.filterMap (reflectItem env name))).flatten
    if reviewed ≠ [] then
      reviewed ++ ctx.filter (fun c => isUserAddedItem c || c.isMedia)
    else ctx

/-- The items a tool contributes (`catch` turns a throw into `[]`). -/
def resultOrEmpty : Except Str (List ContextItem) → List ContextItem
  | .ok l => l
  | .error _ => []

/-- The completed-with-error status a tool's run records (its tag,
exactly when it throws). -/
def errorTagOf (t : CodyTool) (iter : Nat) : List Str :=
  match t.run iter with
  | .ok _ => []
  | .error _ => [t.tag]

/-- The combined new-context batch of one iteration: non-MCP tools (run
concurrently) first, then MCP tools (run sequentially), in registration
order. -/
def toolsBatch (env : AgentEnv) (iter : Nat) : List ContextItem :=
  ((env.tools.filter (fun t => !t.isMcpTool)).map
      (fun t => resultOrEmpty (t.run iter))).flatten
    ++ ((env.tools.filter (fun t => t.isMcpTool)).map
      (fun t => resultOrEmpty (t.run iter))).flatten

/-- The error statuses recorded in one iteration, in the same order. -/
def toolsErrorTags (env : AgentEnv) (iter : Nat) : List Str :=
  ((env.tools.filter (fun t => !t.isMcpTool)).map
      (fun t => errorTagOf t iter)).flatten
    ++ ((env.tools.filter (fun t => t.isMcpTool)).map
      (fun t => errorTagOf t iter)).flatten

/-- The outcome of one `review` iteration. -/
structure ReviewResult where
  newContext : List ContextItem
  context : List ContextItem
  mux : Multiplexer
  errorTags : List Str

/-- `DeepCodyAgent.review`: stream the model response (the multiplexer
is notified once in `processStream`'s `finally`), return no new context
on an empty or ready-to-answer response, otherwise run all tools
(failures isolated per tool) and reflect; a stream error is caught at
iteration scope, notifies the multiplexer a second time, and yields an
empty result. -/
def review (env : AgentEnv) (iter : Nat) (ctx : List ContextItem)
    (mux : Multiplexer) : ReviewResult :=
  match processStreamEvents env.aborted (env.responses iter) [] with
  | .error _ =>
    { newContext := []
      context := ctx
      mux := notifyTurnComplete (notifyTurnComplete mux)
      errorTags := [] }
  | .ok res =>
    if res = [] ∨ isReadyToAnswer res then
      { newContext := []
        context := ctx
        mux := notifyTurnComplete mux
        errorTags := [] }
    else if env.aborted then
      { newContext := []
        context := reflect env (extractTags contextTag res) ctx
        mux := notifyTurnComplete mux
        errorTags := [] }
    else
      { newContext := toolsBatch env iter
        context := reflect env (extractTags contextTag res) ctx
        mux := notifyTurnComplete mux
        errorTags := toolsErrorTags env iter }

/-- The mutable agent state across loop iterations. -/
structure AgentState where
  context : List ContextItem
  loopCount : Nat
  fetchedCount : Nat
  mux : Multiplexer
  errorTags : List Str

/-- `DeepCodyAgent.reviewLoop`, by remaining-iteration fuel: bump the
loop counter, review, break on an empty batch, append the non-
`TOOLCONTEXT` items, break when every new item is user-added. -/
def reviewLoopAux (env : AgentEnv) : Nat → Nat → AgentState → AgentState
  | 0, _, st => st
  | r + 1, iter, st =>
    if env.aborted then st
    else
      let st1 : AgentState := { st with loopCount := st.loopCount + 1 }
      let rr := review env iter st1.context st1.mux
      let st2 : AgentState :=
        { st1 with
          context := rr.context
          mux := rr.mux
          errorTags := st1.errorTags ++ rr.errorTags
          fetchedCount := st1.fetchedCount
            + (if 0 < rr.newContext.length then rr.newContext.length else 0) }
      if rr.newContext = [] then st2
      else
        let validItems := rr.newContext.filter
          (fun c => decide (c.title ≠ some (str "TOOLCONTEXT")))
        let st3 : AgentState :=
          { st2 with
            context := st2.context ++ validItems
            fetchedCount := st2.fetchedCount + validItems.length }
        if rr.newContext.all isUserAddedItem then st3
        else reviewLoopAux env r (iter + 1) st3

/-- The initial agent state. -/
def initState (tools : List CodyTool) (ctx : List ContextItem) : AgentState :=
  { context := ctx
    loopCount := 0
    fetchedCount := 0
    mux := initializeMultiplexer tools
    errorTags := [] }

/-- `DeepCodyAgent.getContext`: run the review loop and return the final
state (whose `context` is the returned context item sequence). -/
def getContext (env : AgentEnv) (ctx : List ContextItem) (maxLoops : Nat) :
    AgentState :=
  reviewLoopAux env maxLoops 0 (initState env.tools ctx)

/-! ## Claims about the reviewer loop -/

/-- Concrete environment for claim C3: one subscribed tool, a stream
that raises an error. -/
def c3Env : AgentEnv :=
  { tools := [⟨str "shell", false, fun _ => .ok []⟩]
    responses := fun _ => [.error (str "boom")]
    dehydrated := []
    resolve := fun _ => none
    aborted := false }

/-- **C3 counterexample.**  When the streamed completion raises an
error, the subscribed tag's turn-complete notification fires twice in
the iteration (once from `processStream`'s `finally`, once from the
iteration-level catch in `review`), not exactly once as claimed. -/
theorem c3_counterexample :
    (review c3Env 0 [] (initializeMultiplexer c3Env.tools)).mux.turnCompleteCount
        (str "shell") = 2
    ∧ (2 : Nat) ≠ 1 := by
  constructor
  · decide
  · decide

/-- **C3 amended.**  For every tag subscribed to the multiplexer, the
turn-complete notification fires exactly once per review iteration when
the stream consumption returns without raising (including the aborted
and ready-to-answer cases), and exactly twice when the streamed
completion raises an error (the `finally` in `processStream` and the
iteration-level catch both call `notifyTurnComplete`); it never fires
zero times. -/
theorem c3_turn_complete_amended (env : AgentEnv) (iter : Nat)
    (ctx : List ContextItem) (mux : Multiplexer) (tag : Str)
    (hsub : tag ∈ mux.tags) :
    (review env iter ctx mux).mux.turnCompleteCount tag
      = mux.turnCompleteCount tag
        + (match processStreamEvents env.aborted (env.responses iter) [] with
           | .ok _ => 1
           | .error _ => 2) := by
  cases hres : processStreamEvents env.aborted (env.responses iter) [] with
  | error e =>
    rw [review, hres]
    simp only [notifyTurnComplete, if_pos hsub]
  | ok res =>
    rw [review, hres]
    dsimp only
    by_cases h1 : res = [] ∨ isReadyToAnswer res
    · rw [if_pos h1]
      simp only [notifyTurnComplete, if_pos hsub]
    · rw [if_neg h1]
      by_cases h2 : env.aborted = true
      · rw [if_pos h2]
        simp only [notifyTurnComplete, if_pos hsub]
      · rw [if_neg h2]
        simp only [notifyTurnComplete, if_pos hsub]

/-- Witness for the amended C3 at a concrete input. -/
theorem c3_turn_complete_amended_witness :
    str "shell" ∈ (initializeMultiplexer c3Env.tools).tags
    ∧ (review c3Env 0 [] (initializeMultiplexer c3Env.tools)).mux.turnCompleteCount
        (str "shell")
      = (initializeMultiplexer c3Env.tools).turnCompleteCount (str "shell")
        + (match processStreamEvents c3Env.aborted (c3Env.responses 0) [] with
           | .ok _ => 1
           | .error _ => 2) :=
  ⟨by decide,
    c3_turn_complete_amended c3Env 0 [] (initializeMultiplexer c3Env.tools)
      (str "shell") (by decide)⟩

/-- Reflection keeps every user-added item of the previous context:
either the context is returned unchanged, or the replaced context
appends the `source = user` (and media) items back. -/
theorem reflect_preserves_user (env : AgentEnv) (item : ContextItem)
    (huser : isUserAddedItem item = true) (names : List Str)
    (ctx : List ContextItem) (hmem : item ∈ ctx) :
    item ∈ reflect env names ctx := by
  rw [reflect]
  split
  · exact hmem
  · dsimp only
    split
    · exact List.mem_append.mpr
        (Or.inr (List.mem_filter.mpr ⟨hmem, by simp [huser]⟩))
    · exact hmem

/-- One `review` iteration keeps every user-added item of the working
context (the context is either unchanged or reflected). -/
theorem review_context_mem_user (env : AgentEnv) (item : ContextItem)
    (huser : isUserAddedItem item = true) (iter : Nat)
    (ctx : List ContextItem) (mux : Multiplexer) (hmem : item ∈ ctx) :
    item ∈ (review env iter ctx mux).context := by
  rw [review]
  cases processStreamEvents env.aborted (env.responses iter) [] with
  | error e => exact hmem
  | ok res =>
    dsimp only
    split
    · exact hmem
    · split
      · exact reflect_preserves_user env item huser _ ctx hmem
      · exact reflect_preserves_user env item huser _ ctx hmem

/-- The review loop keeps every user-added item of the working
context across all its iterations. -/
theorem reviewLoopAux_mem_user (env : AgentEnv) (item : ContextItem)
    (huser : isUserAddedItem item = true) :
    ∀ (r iter : Nat) (st : AgentState), item ∈ st.context →
      item ∈ (reviewLoopAux env r iter st).context := by
  intro r
  induction r with
  | zero => intro iter st h; exact h
  | succ r ih =>
    intro iter st h
    rw [reviewLoopAux]
    split
    · exact h
    · dsimp only
      split
      · exact review_context_mem_user env item huser iter st.context st.mux h
      · split
        · exact List.mem_append.mpr
            (Or.inl (review_context_mem_user env item huser iter st.context
              st.mux h))
        · exact ih (iter + 1) _ (List.mem_append.mpr
            (Or.inl (review_context_mem_user env item huser iter st.context
              st.mux h)))

/-- **C5.**  User-added context items are never dropped: every
`source = user` item in the working context survives each reflection
step that replaces the working context, and an initial user-added item
(in particular one matching none of the extracted context names) is
retained in the final context returned by `getContext`. -/
theorem c5_user_context_preserved (env : AgentEnv) (item : ContextItem)
    (huser : item.source = some CSource.user) :
    (∀ (names : List Str) (ctx : List ContextItem),
        item ∈ ctx → item ∈ reflect env names ctx)
    ∧ (∀ (ctx : List ContextItem) (maxLoops : Nat),
        item ∈ ctx → item ∈ (getContext env ctx maxLoops).context) := by
  have hu : isUserAddedItem item = true := by simp [isUserAddedItem, huser]
  refine ⟨fun names ctx hmem =>
    reflect_preserves_user env item hu names ctx hmem,
    fun ctx maxLoops hmem => ?_⟩
  exact reviewLoopAux_mem_user env item hu maxLoops 0
    (initState env.tools ctx) hmem

/-- A user-added context item for the C5 witness. -/
def c5Item : ContextItem :=
  { path := str "src/user.ts"
    scheme := str "file"
    source := some CSource.user
    title := none
    isMedia := false
    content := str "u" }

/-- A small environment for the C5 witness. -/
def c5Env : AgentEnv :=
  { tools := []
    responses := fun _ => [.complete]
    dehydrated := []
    resolve := fun _ => none
    aborted := false }

/-- Witness for C5 at a concrete input. -/
theorem c5_user_context_preserved_witness :
    c5Item.source = some CSource.user
    ∧ c5Item ∈ reflect c5Env [str "a.ts"] [c5Item]
    ∧ c5Item ∈ (getContext c5Env [c5Item] 3).context :=
  ⟨by decide,
    (c5_user_context_preserved c5Env c5Item (by decide)).1 [str "a.ts"]
      [c5Item] (by decide),
    (c5_user_context_preserved c5Env c5Item (by decide)).2 [c5Item] 3
      (by decide)⟩

/-- Mapping an everywhere-empty function and flattening gives `[]`. -/
theorem flatten_map_eq_nil {A B : Type} (l : List A) (f : A → List B)
    (h : ∀ x ∈ l, f x = []) : (l.map f).flatten = [] := by
  induction l with
  | nil => rfl
  | cons a l ih =>
    simp only [List.map_cons, List.flatten_cons, h a (by simp)]
    exact ih (fun x hx => h x (by simp [hx]))

/-- If every tool returns the empty list, the iteration batch is empty. -/
theorem toolsBatch_eq_nil (env : AgentEnv) (iter : Nat)
    (htools : ∀ t ∈ env.tools, t.run iter = Except.ok []) :
    toolsBatch env iter = [] := by
  rw [toolsBatch]
  rw [flatten_map_eq_nil, flatten_map_eq_nil]
  · rfl
  · intro t ht
    rw [htools t (List.mem_of_mem_filter ht)]
    rfl
  · intro t ht
    rw [htools t (List.mem_of_mem_filter ht)]
    rfl

/-- When an iteration's review yields no new context, the loop stops
there: only the counter, context, multiplexer and error tags move. -/
theorem reviewLoopAux_empty_proj (env : AgentEnv) (r iter : Nat)
    (st : AgentState) (habort : env.aborted = false)
    (hnew : (review env iter st.context st.mux).newContext = []) :
    (reviewLoopAux env (r + 1) iter st).loopCount = st.loopCount + 1
    ∧ (reviewLoopAux env (r + 1) iter st).context
        = (review env iter st.context st.mux).context := by
  rw [reviewLoopAux, if_neg (by simp [habort])]
  dsimp only
  rw [if_pos hnew]
  exact ⟨rfl, rfl⟩

/-- Environment for the C6 counterexample: the single tool always
returns `[]`, but the streamed response names a context file whose
suffix matches the user-added item, so reflection replaces the context
(with a re-tagged agentic copy prepended). -/
def c6Env : AgentEnv :=
  { tools := [⟨str "shell", false, fun _ => .ok []⟩]
    responses := fun _ =>
      [.change (str "<context>a.ts</context>"), .complete]
    dehydrated := []
    resolve := fun _ => none
    aborted := false }

/-- The single user-added context item of the C6 scenario. -/
def c6Item : ContextItem :=
  { path := str "src/a.ts"
    scheme := str "file"
    source := some CSource.user
    title := none
    isMedia := false
    content := str "x" }

/-- **C6 counterexample.**  With tools that always return `[]` the loop
does stop after one iteration, but the returned context is NOT the
initial context unchanged: the reflection step still runs on the
streamed response and here replaces the context. -/
theorem c6_counterexample :
    (getContext c6Env [c6Item] 5).loopCount = 1
    ∧ (getContext c6Env [c6Item] 5).context ≠ [c6Item] := by
  constructor
  · decide
  · decide

/-- **C6 amended.**  If every tool invocation returns the empty list
and the request is not aborted, `getContext` performs exactly one
iteration of the review loop for every positive `maxLoops`; the initial
context is returned unchanged only under the extra assumption that the
reflection step on the streamed response leaves it unchanged. -/
theorem c6_empty_yield_terminates (env : AgentEnv)
    (htools : ∀ t ∈ env.tools, ∀ i, t.run i = Except.ok [])
    (habort : env.aborted = false) (ctx : List ContextItem)
    (maxLoops : Nat) (hml : 1 ≤ maxLoops) :
    (getContext env ctx maxLoops).loopCount = 1
    ∧ ((∀ res,
          processStreamEvents env.aborted (env.responses 0) []
            = Except.ok res →
          reflect env (extractTags contextTag res) ctx = ctx) →
        (getContext env ctx maxLoops).context = ctx) := by
  have hbatch : toolsBatch env 0 = [] :=
    toolsBatch_eq_nil env 0 (fun t ht => htools t ht 0)
  have hnew : (review env 0 (initState env.tools ctx).context
      (initState env.tools ctx).mux).newContext = [] := by
    rw [review]
    cases processStreamEvents env.aborted (env.responses 0) [] with
    | error e => rfl
    | ok res =>
      dsimp only
      split
      · rfl
      · rw [if_neg (by simp [habort])]
        exact hbatch
  obtain ⟨r, rfl⟩ : ∃ r, maxLoops = r + 1 := ⟨maxLoops - 1, by omega⟩
  obtain ⟨hl, hc⟩ := reviewLoopAux_empty_proj env r 0
    (initState env.tools ctx) habort hnew
  refine ⟨by rw [getContext, hl]; rfl, fun hrefl => ?_⟩
  have hctx : (review env 0 (initState env.tools ctx).context
      (initState env.tools ctx).mux).context = ctx := by
    rw [review]
    cases hres : processStreamEvents env.aborted (env.responses 0) [] with
    | error e => rfl
    | ok res =>
      dsimp only
      split
      · rfl
      · rw [if_neg (by simp [habort])]
        exact hrefl res hres
  rw [getContext, hc, hctx]

/-- Environment for the C6 witness: one always-empty tool and a plain
completed (empty-text) stream, so reflection is a no-op. -/
def c6WEnv : AgentEnv :=
  { tools := [⟨str "shell", false, fun _ => .ok []⟩]
    responses := fun _ => [.complete]
    dehydrated := []
    resolve := fun _ => none
    aborted := false }

/-- Witness for the amended C6 at a concrete input. -/
theorem c6_empty_yield_terminates_witness :
    (∀ t ∈ c6WEnv.tools, ∀ i, t.run i = Except.ok [])
    ∧ c6WEnv.aborted = false
    ∧ 1 ≤ 3
    ∧ (getContext c6WEnv [c6Item] 3).loopCount = 1
    ∧ (getContext c6WEnv [c6Item] 3).context = [c6Item] := by
  have ht : ∀ t ∈ c6WEnv.tools, ∀ i, t.run i = Except.ok [] := by
    intro t htm i
    simp only [c6WEnv, List.mem_singleton] at htm
    subst htm
    rfl
  have hmain := c6_empty_yield_terminates c6WEnv ht rfl [c6Item] 3 (by omega)
  refine ⟨ht, rfl, by omega, hmain.1, hmain.2 ?_⟩
  intro res hres
  have hps : processStreamEvents c6WEnv.aborted (c6WEnv.responses 0) []
      = Except.ok [] := rfl
  rw [hps] at hres
  cases hres
  decide

/-- **C8.**  Tool failure isolation: in an iteration whose stream
produced a non-empty, not-ready-to-answer response and that is not
aborted, the new-context output is exactly the per-tool batch in which
a throwing tool contributes `[]` (so all sibling results survive) and
the error statuses are exactly the throwing tools' tags; in particular
for three non-MCP tools of which the second throws, the output is the
first and third tools' results concatenated and exactly the one error
status of the second tool's tag is recorded. -/
theorem c8_tool_failure_isolation (env : AgentEnv) (iter : Nat)
    (ctx : List ContextItem) (mux : Multiplexer) (res : Str)
    (hres : processStreamEvents env.aborted (env.responses iter) []
      = Except.ok res)
    (hne : res ≠ []) (hanswer : isReadyToAnswer res = false)
    (habort : env.aborted = false) :
    ((review env iter ctx mux).newContext = toolsBatch env iter
      ∧ (review env iter ctx mux).errorTags = toolsErrorTags env iter)
    ∧ ∀ (t1 t2 t3 : CodyTool) (r1 r3 : List ContextItem) (e : Str),
        env.tools = [t1, t2, t3] →
        t1.isMcpTool = false → t2.isMcpTool = false → t3.isMcpTool = false →
        t1.run iter = Except.ok r1 → t2.run iter = Except.error e →
        t3.run iter = Except.ok r3 →
        (review env iter ctx mux).newContext = r1 ++ r3
        ∧ (review env iter ctx mux).errorTags = [t2.tag] := by
  have hrev : (review env iter ctx mux).newContext = toolsBatch env iter
      ∧ (review env iter ctx mux).errorTags = toolsErrorTags env iter := by
    rw [review, hres]
    dsimp only
    rw [if_neg (by simp [hne, hanswer]), if_neg (by simp [habort])]
    exact ⟨rfl, rfl⟩
  refine ⟨hrev, ?_⟩
  intro t1 t2 t3 r1 r3 e htools h1 h2 h3 hr1 hr2 hr3
  rw [hrev.1, hrev.2, toolsBatch, toolsErrorTags, htools]
  constructor
  · simp [h1, h2, h3, hr1, hr2, hr3, resultOrEmpty]
  · simp [h1, h2, h3, errorTagOf, hr1, hr2, hr3]

/-- A first sibling-tool result item for the C8 witness. -/
def c8ItemA : ContextItem :=
  { path := str "a.ts"
    scheme := str "file"
    source := none
    title := none
    isMedia := false
    content := str "a" }

/-- A second sibling-tool result item for the C8 witness. -/
def c8ItemB : ContextItem :=
  { path := str "b.ts"
    scheme := str "file"
    source := none
    title := none
    isMedia := false
    content := str "b" }

/-- Environment for the C8 witness: three non-MCP tools, the second of
which throws. -/
def c8Env : AgentEnv :=
  { tools := [⟨str "t1", false, fun _ => .ok [c8ItemA]⟩,
              ⟨str "t2", false, fun _ => .error (str "boom")⟩,
              ⟨str "t3", false, fun _ => .ok [c8ItemB]⟩]
    responses := fun _ => [.change (str "go"), .complete]
    dehydrated := []
    resolve := fun _ => none
    aborted := false }

/-- Witness for C8 at a concrete input. -/
theorem c8_tool_failure_isolation_witness :
    processStreamEvents c8Env.aborted (c8Env.responses 0) []
      = Except.ok (str "go")
    ∧ str "go" ≠ []
    ∧ isReadyToAnswer (str "go") = false
    ∧ c8Env.aborted = false
    ∧ (review c8Env 0 [] (initializeMultiplexer c8Env.tools)).newContext
        = [c8ItemA] ++ [c8ItemB]
    ∧ (review c8Env 0 [] (initializeMultiplexer c8Env.tools)).errorTags
        = [str "t2"] := by
  have h := (c8_tool_failure_isolation c8Env 0 []
      (initializeMultiplexer c8Env.tools) (str "go") rfl (by decide)
      (by decide) rfl).2
    ⟨str "t1", false, fun _ => .ok [c8ItemA]⟩
    ⟨str "t2", false, fun _ => .error (str "boom")⟩
    ⟨str "t3", false, fun _ => .ok [c8ItemB]⟩
    [c8ItemA] [c8ItemB] (str "boom") rfl rfl rfl rfl rfl rfl rfl
  exact ⟨rfl, by decide, by decide, rfl, h.1, h.2⟩

/-- **C10.**  Items titled `TOOLCONTEXT` never reach the working
context — each iteration's filter drops them, so the context is
returned unchanged — yet the unfiltered batch drives both termination
checks: when every batch is non-empty the zero-new-items break never
fires and the loop runs the full `maxLoops` iterations (when some batch
item is not user-added each time), while a first batch of entirely
user-added `TOOLCONTEXT` items stops the loop after one iteration. -/
theorem c10_toolcontext_items (env : AgentEnv)
    (habort : env.aborted = false)
    (htools : ∀ t ∈ env.tools, ∀ i, ∀ its, t.run i = Except.ok its →
        ∀ it ∈ its, it.title = some (str "TOOLCONTEXT"))
    (hresp : ∀ i, ∃ res,
        processStreamEvents env.aborted (env.responses i) []
          = Except.ok res
        ∧ res ≠ [] ∧ isReadyToAnswer res = false
        ∧ extractTags contextTag res = []) :
    ∀ (ctx : List ContextItem) (maxLoops : Nat),
      ((getContext env ctx maxLoops).context = ctx)
      ∧ ((∀ i, toolsBatch env i ≠ []
            ∧ (toolsBatch env i).all isUserAddedItem = false) →
          (getContext env ctx maxLoops).loopCount = maxLoops)
      ∧ (toolsBatch env 0 ≠ [] →
          (toolsBatch env 0).all isUserAddedItem = true →
          1 ≤ maxLoops →
          (getContext env ctx maxLoops).loopCount = 1) := by
  have hmem : ∀ i it, it ∈ toolsBatch env i →
      it.title = some (str "TOOLCONTEXT") := by
    intro i it hit
    rw [toolsBatch] at hit
    rcases List.mem_append.mp hit with h | h
    · rcases List.mem_flatten.mp h with ⟨l, hl, hil⟩
      rcases List.mem_map.mp hl with ⟨t, htf, rfl⟩
      cases hrun : t.run i with
      | error e => rw [hrun] at hil; simp [resultOrEmpty] at hil
      | ok its =>
        rw [hrun] at hil
        exact htools t (List.mem_of_mem_filter htf) i its hrun it hil
    · rcases List.mem_flatten.mp h with ⟨l, hl, hil⟩
      rcases List.mem_map.mp hl with ⟨t, htf, rfl⟩
      cases hrun : t.run i with
      | error e => rw [hrun] at hil; simp [resultOrEmpty] at hil
      | ok its =>
        rw [hrun] at hil
        exact htools t (List.mem_of_mem_filter htf) i its hrun it hil
  have hrev : ∀ i C mux, (review env i C mux).newContext = toolsBatch env i
      ∧ (review env i C mux).context = C := by
    intro i C mux
    obtain ⟨res, hok, hne, hna, hext⟩ := hresp i
    rw [review, hok]
    dsimp only
    rw [if_neg (by simp [hne, hna]), if_neg (by simp [habort])]
    refine ⟨rfl, ?_⟩
    rw [hext, reflect, if_pos (Or.inl rfl)]
  have haux : ∀ r iter st,
      (reviewLoopAux env r iter st).context = st.context
      ∧ ((∀ i, toolsBatch env i ≠ []
            ∧ (toolsBatch env i).all isUserAddedItem = false) →
          (reviewLoopAux env r iter st).loopCount = st.loopCount + r) := by
    intro r
    induction r with
    | zero => intro iter st; exact ⟨rfl, fun _ => rfl⟩
    | succ r ih =>
      intro iter st
      rw [reviewLoopAux, if_neg (by simp [habort])]
      dsimp only
      rcases hrev iter st.context st.mux with ⟨hn, hc⟩
      by_cases hb : toolsBatch env iter = []
      · rw [if_pos (hn.trans hb)]
        exact ⟨hc, fun hall => absurd hb (hall iter).1⟩
      · rw [if_neg (fun h => hb (hn.symm.trans h))]
        have hvi : (review env iter st.context st.mux).newContext.filter
            (fun c => decide (c.title ≠ some (str "TOOLCONTEXT"))) = [] := by
          rw [hn]
          exact List.filter_eq_nil_iff.mpr
            (fun it hit => by simp [hmem iter it hit])
        by_cases hu :
            (review env iter st.context st.mux).newContext.all isUserAddedItem
        · rw [if_pos hu]
          constructor
          · dsimp only
            rw [hvi, List.append_nil]
            exact hc
          · exact fun hall => absurd (hall iter).2
              (by rw [hn] at hu; simp [hu])
        · rw [if_neg hu]
          constructor
          · rw [(ih (iter + 1) _).1]
            dsimp only
            rw [hvi, List.append_nil]
            exact hc
          · intro hall
            rw [(ih (iter + 1) _).2 hall]
            dsimp only
            omega
  intro ctx maxLoops
  refine ⟨(haux maxLoops 0 (initState env.tools ctx)).1,
    fun hall => ?_, fun hb hu hml => ?_⟩
  · rw [getContext, (haux maxLoops 0 (initState env.tools ctx)).2 hall]
    simp [initState]
  · obtain ⟨m, rfl⟩ : ∃ m, maxLoops = m + 1 := ⟨maxLoops - 1, by omega⟩
    rw [getContext, reviewLoopAux, if_neg (by simp [habort])]
    dsimp only
    rcases hrev 0 (initState env.tools ctx).context
      (initState env.tools ctx).mux with ⟨hn, hc⟩
    rw [if_neg (fun h => hb (hn.symm.trans h))]
    rw [if_pos (by rw [hn]; exact hu)]
    simp [initState]

/-- The tool-status item of the C10 witness, titled `TOOLCONTEXT`. -/
def c10TCItem : ContextItem :=
  { path := str "status.md"
    scheme := str "cody"
    source := none
    title := some (str "TOOLCONTEXT")
    isMedia := false
    content := str "s" }

/-- Environment for the C10 witness: the single tool always returns one
`TOOLCONTEXT`-titled, non-user item. -/
def c10Env : AgentEnv :=
  { tools := [⟨str "t", false, fun _ => .ok [c10TCItem]⟩]
    responses := fun _ => [.change (str "go"), .complete]
    dehydrated := []
    resolve := fun _ => none
    aborted := false }

/-- A user-added context item for the C10 witness. -/
def c10UserItem : ContextItem :=
  { path := str "src/u.ts"
    scheme := str "file"
    source := some CSource.user
    title := none
    isMedia := false
    content := str "u" }

/-- Witness for C10 at a concrete input: the context is unchanged and
the loop runs all 4 iterations. -/
theorem c10_toolcontext_items_witness :
    (getContext c10Env [c10UserItem] 4).context = [c10UserItem]
    ∧ (getContext c10Env [c10UserItem] 4).loopCount = 4 := by
  have htools : ∀ t ∈ c10Env.tools, ∀ i, ∀ its, t.run i = Except.ok its →
      ∀ it ∈ its, it.title = some (str "TOOLCONTEXT") := by
    intro t htm i its hrun it hit
    simp only [c10Env, List.mem_singleton] at htm
    subst htm
    cases hrun
    simp only [List.mem_singleton] at hit
    subst hit
    rfl
  have hresp : ∀ i, ∃ res,
      processStreamEvents c10Env.aborted (c10Env.responses i) []
        = Except.ok res
      ∧ res ≠ [] ∧ isReadyToAnswer res = false
      ∧ extractTags contextTag res = [] :=
    fun i => ⟨str "go", rfl, by decide, by decide, by decide⟩
  have h := c10_toolcontext_items c10Env rfl htools hresp [c10UserItem] 4
  refine ⟨h.1, h.2.1 ?_⟩
  intro i
  have hbatch : toolsBatch c10Env i = [c10TCItem] := rfl
  rw [hbatch]
  exact ⟨by simp, by decide⟩

end Cody
